import Mathlib

set_option maxRecDepth 100000

deriving instance DecidableEq for Except

/-!
Verification development for the content-extraction core of the web-to-epub
converter (package `internal/extractor`, plus the `formatter` HTML normalizer).

The Go sources are shallowly embedded:
* HTML documents (`goquery.Document` / `html.Node`) become the inductive
  `HNode` / `Doc`.  CSS selectors are modelled extensionally as node
  predicates bundled with their source string (`Sel`); the fixed selector
  lists of the structural strategy and of the title resolver use the small
  concrete interpreter `SimpleSel`.
* Go regular expressions of the pattern strategy and title resolver are
  modelled as their compilation result: `Pat` carries `none` when
  `regexp.Compile` would fail, otherwise an abstract match function with
  `FindStringSubmatch` semantics.
* The concrete sanitizer regexes of `formatter.HTMLNormalizer.Normalize` are
  hand-compiled to deterministic scanners over `List Char` that implement Go's
  leftmost, non-overlapping `ReplaceAllString` semantics for those patterns.
* `float64` scoring arithmetic of the density strategy is idealised as exact
  rational arithmetic via the kernel-computable fraction type `Frac`
  (integer numerator, natural denominator, cross-multiplication order).
* Go string lengths are modelled as character counts, and
  `strings.TrimSpace` as ASCII white-space trimming.
* In-place DOM mutation is made explicit: every strategy returns the document
  tree as it stands after the call, so cloning in the Go source corresponds
  to returning the input document unchanged.
* Recursion over rose trees and scanners uses explicit fuel (bounded by the
  input size or a large constant) so that all definitions evaluate inside the
  kernel; the fuel always suffices on the stated inputs.
-/

/-! ## Character and string utilities -/

/-- ASCII white-space as recognised by Go's `unicode.IsSpace` (restricted to
ASCII), used by `strings.TrimSpace`. -/
def goTrimWS (c : Char) : Bool :=
  c = ' ' || c = '\t' || c = '\n' || c = '\x0b' || c = '\x0c' || c = '\r'

/-- White-space of the Go regexp class `\s` (`[\t\n\f\r ]`). -/
def regexWS (c : Char) : Bool :=
  c = ' ' || c = '\t' || c = '\n' || c = '\x0c' || c = '\r'

/-- Word characters of the Go regexp class `\w` (`[0-9A-Za-z_]`). -/
def wordChar (c : Char) : Bool :=
  ('0' ≤ c && c ≤ '9') || ('a' ≤ c && c ≤ 'z') || ('A' ≤ c && c ≤ 'Z') || c = '_'

/-- Characters of the Go regexp class `[a-zA-Z0-9-]` used for `data-`
attribute names. -/
def dataNameChar (c : Char) : Bool :=
  ('0' ≤ c && c ≤ '9') || ('a' ≤ c && c ≤ 'z') || ('A' ≤ c && c ≤ 'Z') || c = '-'

/-- Remove trailing white-space (`strings.TrimSpace`, right half). -/
def trimRightList : List Char → List Char
  | [] => []
  | c :: cs =>
    let r := trimRightList cs
    if r.isEmpty && goTrimWS c then [] else c :: r

/-- `strings.TrimSpace` on character lists. -/
def trimList (l : List Char) : List Char :=
  trimRightList (l.dropWhile goTrimWS)

/-- `strings.TrimSpace` on strings. -/
def trimStr (s : String) : String :=
  String.mk (trimList s.toList)

/-- Lower-case a character list (`strings.ToLower`, ASCII). -/
def lowerList (l : List Char) : List Char :=
  l.map Char.toLower

/-- Does `pat` occur as a contiguous substring of `l` (`strings.Contains`)? -/
def containsSub (pat : List Char) : List Char → Bool
  | [] => pat.isEmpty
  | c :: cs => pat.isPrefixOf (c :: cs) || containsSub pat cs

/-- Strip `pre` from the front of `l`, or fail. -/
def stripPre : List Char → List Char → Option (List Char)
  | [], l => some l
  | _ :: _, [] => none
  | p :: ps, c :: cs => if c = p then stripPre ps cs else none

/-- Strip `pre` from the front of `l` case-insensitively, or fail. -/
def stripPreCI : List Char → List Char → Option (List Char)
  | [], l => some l
  | _ :: _, [] => none
  | p :: ps, c :: cs => if c.toLower = p.toLower then stripPreCI ps cs else none

/-- Strip `pre` case-insensitively, returning the actually matched characters
together with the rest (used where a regex captures the matched text). -/
def stripPreCICap : List Char → List Char → Option (List Char × List Char)
  | [], l => some ([], l)
  | _ :: _, [] => none
  | p :: ps, c :: cs =>
    if c.toLower = p.toLower then
      match stripPreCICap ps cs with
      | some (cap, rest) => some (c :: cap, rest)
      | none => none
    else none

/-- Rest of `l` after the first occurrence of the character `q`, or `none`. -/
def afterChar (q : Char) : List Char → Option (List Char)
  | [] => none
  | c :: cs => if c = q then some cs else afterChar q cs

/-- Rest of `l` after the earliest occurrence of `pat` (matched
case-insensitively), or `none` (the `.*?pat` idiom of the Go regexes). -/
def searchCI (pat : List Char) : List Char → Option (List Char)
  | [] => if pat.isEmpty then some [] else none
  | c :: cs =>
    match stripPreCI pat (c :: cs) with
    | some r => some r
    | none => searchCI pat cs

/-- Whether the white-space separated token list of a `class` attribute value
contains `tok` (cascadia class matching); fuel-bounded scanner. -/
def hasTokenGo : Nat → List Char → List Char → Bool
  | 0, _, _ => false
  | fuel + 1, l, tok =>
    let l1 := l.dropWhile goTrimWS
    match l1 with
    | [] => false
    | _ :: _ =>
      let t := l1.takeWhile (fun c => !goTrimWS c)
      let r := l1.dropWhile (fun c => !goTrimWS c)
      (t = tok) || hasTokenGo fuel r tok

/-- Token membership in a `class` attribute value. -/
def hasToken (l tok : List Char) : Bool :=
  hasTokenGo (l.length + 1) l tok

/-! ## Exact fractions

`float64` arithmetic of the density scorer is idealised as exact rational
arithmetic.  `Frac` is kept unreduced so that every operation and comparison
is kernel-computable (no gcd normalisation). -/

/-- An unreduced fraction; all denominators produced below are positive. -/
structure Frac where
  num : Int
  den : Nat
  deriving DecidableEq

/-- Fraction comparison `a ≤ b` by cross-multiplication (denominators are
positive wherever this is used). -/
def Frac.le (a b : Frac) : Bool :=
  a.num * (b.den : Int) ≤ b.num * (a.den : Int)

/-- Fraction comparison `a < b` by cross-multiplication. -/
def Frac.lt (a b : Frac) : Bool :=
  a.num * (b.den : Int) < b.num * (a.den : Int)

/-- Fraction multiplication. -/
def Frac.mul (a b : Frac) : Frac :=
  ⟨a.num * b.num, a.den * b.den⟩

/-- The rational value of a fraction. -/
def Frac.val (a : Frac) : ℚ :=
  (a.num : ℚ) / (a.den : ℚ)

/-- Format a (non-negative) fraction with two decimal places, mirroring
`fmt.Sprintf("%.2f", ...)` with round-half-to-even. -/
def Frac.fmt2 (a : Frac) : String :=
  if a.den = 0 then "0.00" else
  let scaled : Int := a.num * 100
  let q : Int := scaled / (a.den : Int)
  let r : Int := scaled % (a.den : Int)
  let rounded : Int :=
    if 2 * r > (a.den : Int) then q + 1
    else if 2 * r < (a.den : Int) then q
    else if q % 2 = 0 then q else q + 1
  let ip := rounded / 100
  let fp := (rounded % 100).toNat
  toString ip ++ "." ++ (if fp < 10 then "0" else "") ++ toString fp

/-! ## The HTML document model

`HNode` models `html.Node`: element nodes carry a tag, an attribute list and
children; text nodes carry their data.  A `Doc` is the document node, i.e. the
list of top-level nodes of a parsed page.  Serialisation is simplified (no
entity escaping, every element gets an explicit end tag); it is used
consistently on both sides of every comparison. -/

inductive HNode where
  | text (s : String)
  | elem (tag : String) (attrs : List (String × String)) (children : List HNode)

/-- A parsed document: the children of the document node. -/
structure Doc where
  children : List HNode

/-- Is this an element node? -/
def HNode.isElem : HNode → Bool
  | .elem _ _ _ => true
  | .text _ => false

/-- The tag of an element (`goquery.NodeName`); empty for text nodes. -/
def HNode.tagName : HNode → String
  | .elem t _ _ => t
  | .text _ => ""

/-- First value of the attribute `k` (`Selection.Attr`), defaulting to `""`
like the Go call sites that ignore the `exists` flag. -/
def HNode.attr (n : HNode) (k : String) : String :=
  match n with
  | .text _ => ""
  | .elem _ attrs _ =>
    match attrs.find? (fun a => a.1 = k) with
    | some a => a.2
    | none => ""

/-- Fuel bound for tree traversals; far larger than any tree considered. -/
def treeFuel : Nat := 1000000

/-- Concatenated text content (`Selection.Text`), fuel-bounded. -/
def textGo : Nat → HNode → String
  | 0, _ => ""
  | _ + 1, .text s => s
  | fuel + 1, .elem _ _ cs => String.join (cs.map (textGo fuel))

/-- Concatenated text content of a node. -/
def HNode.textContent (n : HNode) : String :=
  textGo treeFuel n

/-- Serialise an attribute list as ` k="v" ...`. -/
def renderAttrs (attrs : List (String × String)) : String :=
  String.join (attrs.map (fun a => " " ++ a.1 ++ "=\"" ++ a.2 ++ "\""))

/-- Serialise a node to markup (`html.Render`, simplified), fuel-bounded. -/
def renderGo : Nat → HNode → String
  | 0, _ => ""
  | _ + 1, .text s => s
  | fuel + 1, .elem t attrs cs =>
    "<" ++ t ++ renderAttrs attrs ++ ">" ++ String.join (cs.map (renderGo fuel)) ++ "</" ++ t ++ ">"

/-- Outer markup of a node. -/
def HNode.outerHTML (n : HNode) : String :=
  renderGo treeFuel n

/-- Inner markup of a node (`Selection.Html` of a wrapped node). -/
def HNode.innerHTML : HNode → String
  | .text _ => ""
  | .elem _ _ cs => String.join (cs.map HNode.outerHTML)

/-- Markup of the whole document (`Document.Html`: inner markup of the
document node). -/
def Doc.html (d : Doc) : String :=
  String.join (d.children.map HNode.outerHTML)

/-- All element descendants of `n` (strictly below `n`) that satisfy `p`, in
document order, fuel-bounded — the core of `Selection.Find`. -/
def findGo (p : HNode → Bool) : Nat → HNode → List HNode
  | 0, _ => []
  | _ + 1, .text _ => []
  | fuel + 1, .elem _ _ cs =>
    (cs.map (fun c => (if c.isElem && p c then [c] else []) ++ findGo p fuel c)).flatten

/-- Strict element descendants of `n` matching `p`, in document order. -/
def HNode.findAll (n : HNode) (p : HNode → Bool) : List HNode :=
  findGo p treeFuel n

/-- `Document.Find`: element descendants of the document node matching `p`,
in document order. -/
def Doc.find (d : Doc) (p : HNode → Bool) : List HNode :=
  (d.children.map (fun c => (if c.isElem && p c then [c] else []) ++ findGo p treeFuel c)).flatten

/-- Remove every strict descendant (and its subtree) matching `p` —
`Selection.Find(sel).Remove()` applied below a fixed root; fuel-bounded. -/
def removeGo (p : HNode → Bool) : Nat → HNode → HNode
  | 0, n => n
  | _ + 1, .text s => .text s
  | fuel + 1, .elem t attrs cs =>
    .elem t attrs ((cs.filter (fun c => !(c.isElem && p c))).map (removeGo p fuel))

/-- Remove all strict descendants of `n` matching `p`. -/
def HNode.removeAll (n : HNode) (p : HNode → Bool) : HNode :=
  removeGo p treeFuel n

/-- Node at a child-index path below the document node, fuel-bounded. -/
def getPathGo : Nat → List HNode → List Nat → Option HNode
  | 0, _, _ => none
  | _ + 1, _, [] => none
  | _ + 1, cs, [i] => cs[i]?
  | fuel + 1, cs, i :: rest =>
    match cs[i]? with
    | some (.elem _ _ gc) => getPathGo fuel gc rest
    | _ => none

/-- Replace the node at a child-index path, fuel-bounded.  This realises an
in-place mutation of a subtree that is shared with the original document. -/
def setPathGo : Nat → List HNode → List Nat → HNode → List HNode
  | 0, cs, _, _ => cs
  | _ + 1, cs, [], _ => cs
  | _ + 1, cs, [i], nn => cs.set i nn
  | fuel + 1, cs, i :: rest, nn =>
    match cs[i]? with
    | some (.elem t a gc) => cs.set i (.elem t a (setPathGo fuel gc rest nn))
    | _ => cs

/-- Node of `d` at a path. -/
def Doc.getPath (d : Doc) (p : List Nat) : Option HNode :=
  getPathGo treeFuel d.children p

/-- `d` with the node at path `p` replaced by `nn`. -/
def Doc.setPath (d : Doc) (p : List Nat) (nn : HNode) : Doc :=
  ⟨setPathGo treeFuel d.children p nn⟩

/-- All element nodes having a strict `body` ancestor, with their paths, in
document order: the traversal `doc.Find("body")` followed by `.Find("*")` of
the density strategy.  `under` records whether a `body` ancestor was seen. -/
def bodyDescGo : Nat → Bool → List Nat → HNode → List (List Nat × HNode)
  | 0, _, _, _ => []
  | _ + 1, _, _, .text _ => []
  | fuel + 1, under, pre, .elem t attrs cs =>
    (if under then [(pre, HNode.elem t attrs cs)] else []) ++
      (((List.range cs.length).zip cs).map
        (fun ic => bodyDescGo fuel (under || t = "body") (pre ++ [ic.1]) ic.2)).flatten

/-- Element descendants of any `body` element of the document, with paths, in
document order. -/
def Doc.bodyDescendants (d : Doc) : List (List Nat × HNode) :=
  (((List.range d.children.length).zip d.children).map
    (fun ic => bodyDescGo treeFuel false [ic.1] ic.2)).flatten

/-! ## Selectors

Configured CSS selectors are modelled extensionally: `Sel` bundles the
configuration string (used for emptiness checks and error messages) with a
node predicate giving its meaning; `Doc.find` applies it in document order.
The fixed selector lists hard-coded in the structural strategy and the title
resolver are interpreted concretely by `SimpleSel`. -/

/-- A configured CSS selector: its source text and its extensional meaning. -/
structure Sel where
  raw : String
  sem : HNode → Bool

/-- The concrete selector forms appearing in the fixed lists of
`DOMPositionStrategy.Extract` and `ExtractTitle`. -/
inductive SimpleSel where
  | tagS (t : String)
  | clsS (c : String)
  | tagClsS (t c : String)
  | idS (i : String)
  | attrS (k v : String)

/-- Interpret a `SimpleSel` on an element node (cascadia semantics: class
selectors match white-space separated tokens of the `class` attribute,
`[k='v']` matches the exact attribute value). -/
def SimpleSel.matches : SimpleSel → HNode → Bool
  | .tagS t, n => n.tagName = t
  | .clsS c, n => hasToken (n.attr "class").toList c.toList
  | .tagClsS t c, n => n.tagName = t && hasToken (n.attr "class").toList c.toList
  | .idS i, n => n.attr "id" = i
  | .attrS k v, n => n.attr k = v

/-- Is the node a `script`, `style` or `noscript` element (the comma selector
`"script, style, noscript"`)? -/
def isScripty (n : HNode) : Bool :=
  n.tagName = "script" || n.tagName = "style" || n.tagName = "noscript"

/-! ## Options, result and strategy configuration (`types.go`) -/

/-- `extractor.ExtractionOptions`. -/
structure ExtractionOptions where
  titleSelector : String
  titleRegex : String
  minContentLength : Int
  preserveImages : Bool
  cleanScripts : Bool

/-- `extractor.DefaultExtractionOptions`. -/
def DefaultExtractionOptions : ExtractionOptions :=
  { titleSelector := "", titleRegex := "", minContentLength := 100,
    preserveImages := true, cleanScripts := true }

/-- `extractor.ExtractionResult`. -/
structure ExtractionResult where
  content : String
  title : String
  strategyUsed : String
  warnings : List String
  deriving DecidableEq

/-- A configured regex pattern: its source text together with the result of
`regexp.Compile` — `none` if the pattern does not compile, otherwise the
`FindStringSubmatch` function of the compiled regex (first element the whole
match, subsequent elements the capturing groups; `[]` when there is no
match). -/
structure Pat where
  raw : String
  compiled : Option (String → List String)

/-- The four concrete strategy implementations
(`CSSSelectorStrategy`, `TextDensityStrategy`, `XPathRegexStrategy`,
`DOMPositionStrategy`). -/
inductive BaseStrategy where
  | css (selector : Sel) (excludeSelectors : List Sel)
  | density (minDensityScore : Frac) (minBlockSize : Int)
  | xpathRegex (patterns : List Pat)
  | domPosition (maxDepth minWidth : Int)

/-- `Name()` of each base strategy. -/
def BaseStrategy.name : BaseStrategy → String
  | .css _ _ => "css_selector"
  | .density _ _ => "text_density"
  | .xpathRegex _ => "xpath_regex"
  | .domPosition _ _ => "dom_position"

/-- A `DetectionStrategy` handed to the orchestrator: one of the four base
strategies, or `HybridStrategy` over a list of base strategies (the closed
set of implementations composed by `NewHybridStrategy`). -/
inductive Strategy where
  | base (b : BaseStrategy)
  | hybrid (strategies : List BaseStrategy)

/-- `Name()` of a strategy. -/
def Strategy.name : Strategy → String
  | .base b => b.name
  | .hybrid _ => "hybrid"

/-! ## CSS selector strategy (`CSSSelectorStrategy.Extract`) -/

/-- The per-match cleaning of the selector strategy: remove descendants
matching each exclusion selector in order, then (when `cleanScripts`)
script/style/noscript descendants.  Applied to cloned matches. -/
def cssClean (excl : List Sel) (opts : ExtractionOptions) (n : HNode) : HNode :=
  let n1 := excl.foldl (fun acc e => acc.removeAll e.sem) n
  if opts.cleanScripts then n1.removeAll isScripty else n1

/-- `CSSSelectorStrategy.Extract`.  The clone step of the source makes the
call pure, so only the extraction result is returned. -/
def cssExtract (sel : Sel) (excl : List Sel) (doc : Doc) (opts : ExtractionOptions) :
    Except String String :=
  if sel.raw = "" then .error "no CSS selector configured"
  else
    let ms := doc.find sel.sem
    if ms.isEmpty then .error ("selector '" ++ sel.raw ++ "' matched no elements")
    else
      let cleaned := ms.map (cssClean excl opts)
      .ok (trimStr ((cleaned.headD (.text "")).innerHTML))

/-! ## Text density strategy (`TextDensityStrategy.Extract`,
`findBestBlockByDensity`) -/

/-- The candidate tag set of `findBestBlockByDensity`. -/
def contentTags : List String :=
  ["div", "article", "section", "main", "p", "td", "blockquote"]

/-- The boilerplate substrings that disqualify a candidate via its combined
`class`/`id` attributes. -/
def skipPatterns : List String :=
  ["nav", "menu", "sidebar", "footer", "header", "ad", "comment", "share", "social"]

/-- The per-candidate filter and scoring of `findBestBlockByDensity`:
`none` if the candidate is rejected before scoring, otherwise its density and
score.  `score = density`, `×1.2` if the text is longer than 500, further
`×1.3` if longer than 1000, and `×1.5` for more than two `p` descendants. -/
def candScore (minSize : Int) (n : HNode) : Option (Frac × Frac) :=
  if !(contentTags.contains n.tagName) then none
  else
    let combined := lowerList ((n.attr "class").toList ++ [' '] ++ (n.attr "id").toList)
    if skipPatterns.any (fun pat => containsSub pat.toList combined) then none
    else
      let t := trimStr n.textContent
      if (t.length : Int) < minSize then none
      else
        let m := n.innerHTML
        if m.length = 0 then none
        else
          let density : Frac := ⟨(t.length : Int), m.length⟩
          let s1 := if t.length > 500 then density.mul ⟨6, 5⟩ else density
          let s2 := if t.length > 1000 then s1.mul ⟨13, 10⟩ else s1
          let s3 := if (n.findAll (fun c => c.tagName = "p")).length > 2 then s2.mul ⟨3, 2⟩ else s2
          some (density, s3)

/-- The accumulator loop of `findBestBlockByDensity`: keep the candidate with
the strictly highest score whose density clears the threshold (`score >
bestScore && density >= minDensity`, `bestScore` starting at `0`). -/
def bestLoop (minDensity : Frac) (minSize : Int) :
    List (List Nat × HNode) → Option (List Nat × HNode) → Frac → Option (List Nat × HNode)
  | [], best, _ => best
  | (p, n) :: rest, best, bestScore =>
    match candScore minSize n with
    | none => bestLoop minDensity minSize rest best bestScore
    | some (density, score) =>
      if bestScore.lt score && minDensity.le density then
        bestLoop minDensity minSize rest (some (p, n)) score
      else
        bestLoop minDensity minSize rest best bestScore

/-- `findBestBlockByDensity` over the element descendants of the `body`
selection, in document order. -/
def findBestBlockByDensity (cands : List (List Nat × HNode)) (minDensity : Frac)
    (minSize : Int) : Option (List Nat × HNode) :=
  bestLoop minDensity minSize cands none ⟨0, 1⟩

/-- `TextDensityStrategy.Extract`.  `goquery.NewDocumentFromNode` wraps the
winning block without cloning it, so the script/style/noscript removal under
`cleanScripts` is a mutation of the original tree: the returned document has
the cleaned subtree written back at the winner's path. -/
def densityExtract (minDensityScore : Frac) (minBlockSize : Int) (doc : Doc)
    (opts : ExtractionOptions) : Except String String × Doc :=
  if (doc.find (fun n => n.tagName = "body")).isEmpty then
    (.error "no body element found", doc)
  else
    let minDensity := if minDensityScore.le ⟨0, 1⟩ then ⟨3, 10⟩ else minDensityScore
    let minSize := if minBlockSize ≤ 0 then 100 else minBlockSize
    match findBestBlockByDensity doc.bodyDescendants minDensity minSize with
    | none =>
      (.error ("no suitable content block found (min density: " ++ minDensity.fmt2 ++
        ", min size: " ++ toString minSize ++ ")"), doc)
    | some (path, n) =>
      if opts.cleanScripts then
        let cleaned := n.removeAll isScripty
        (.ok (trimStr cleaned.innerHTML), doc.setPath path cleaned)
      else
        (.ok (trimStr n.innerHTML), doc)

/-! ## Pattern strategy (`XPathRegexStrategy.Extract`) -/

/-- The pattern loop: skip uncompilable patterns, return the trimmed first
capturing group of the first pattern that matched with at least one group
(`len(matches) > 1`) and whose trimmed group is non-empty. -/
def xpathLoop (fullHTML : String) : List Pat → Except String String
  | [] => .error "no regex patterns matched"
  | p :: rest =>
    match p.compiled with
    | none => xpathLoop fullHTML rest
    | some f =>
      let ms := f fullHTML
      if ms.length > 1 then
        let content := trimStr (ms.getD 1 "")
        if content.length > 0 then .ok content else xpathLoop fullHTML rest
      else xpathLoop fullHTML rest

/-- `XPathRegexStrategy.Extract`: serialise the whole document once, then try
the patterns in order. -/
def xpathExtract (patterns : List Pat) (doc : Doc) : Except String String :=
  if patterns.isEmpty then .error "no regex patterns configured"
  else xpathLoop doc.html patterns

/-! ## Structural strategy (`DOMPositionStrategy.Extract`) -/

/-- The fixed content-container selector list, in priority order. -/
def domPatterns : List SimpleSel :=
  [.tagClsS "article" "content", .tagClsS "article" "post-content",
   .tagClsS "article" "entry-content", .tagClsS "article" "story-content",
   .tagS "article", .tagClsS "main" "content", .tagS "main",
   .clsS "chapter-content", .clsS "story-content", .clsS "post-content",
   .clsS "entry-content", .clsS "article-content", .clsS "content-body",
   .clsS "post-body", .clsS "text-content", .clsS "content", .clsS "post",
   .clsS "story", .clsS "article", .idS "content", .idS "main-content",
   .idS "article-content", .idS "story-content", .idS "post-content",
   .attrS "role" "main", .attrS "role" "article",
   .tagClsS "div" "content", .tagClsS "div" "main"]

/-- The fixed boilerplate-removal list. -/
def domRemovePatterns : List SimpleSel :=
  [.tagS "nav", .tagS "aside", .tagS "header", .tagS "footer",
   .clsS "ads", .clsS "ad", .clsS "advertisement",
   .clsS "sidebar", .clsS "side-bar",
   .clsS "comments", .clsS "comment-section",
   .clsS "share", .clsS "social", .clsS "sharing",
   .clsS "related", .clsS "recommended",
   .clsS "navigation", .clsS "breadcrumb",
   .clsS "author-bio", .clsS "author-info",
   .tagS "script", .tagS "style", .tagS "noscript"]

/-- Boilerplate removal applied to a cloned match of the structural
strategy. -/
def domClean (n : HNode) : HNode :=
  domRemovePatterns.foldl (fun acc rp => acc.removeAll rp.matches) n

/-- The selector loop of `DOMPositionStrategy.Extract`: first selector with a
match whose cleaned, trimmed markup is longer than 100 characters wins;
otherwise continue down the list. -/
def domLoop (doc : Doc) : List SimpleSel → Except String String
  | [] => .error "no content found using DOM position heuristics"
  | pat :: rest =>
    let ms := doc.find pat.matches
    if ms.isEmpty then domLoop doc rest
    else
      let cleaned := ms.map domClean
      let h := trimStr ((cleaned.headD (.text "")).innerHTML)
      if h.length > 100 then .ok h else domLoop doc rest

/-- `DOMPositionStrategy.Extract` (its `MaxDepth`/`MinWidth` fields are
unused by the source). -/
def domExtract (doc : Doc) : Except String String :=
  domLoop doc domPatterns

/-! ## Extraction dispatch and the hybrid strategy -/

/-- `Extract` of a base strategy; the second component is the document tree
as it stands after the call (only the density strategy ever changes it). -/
def extractBase : BaseStrategy → Doc → ExtractionOptions → Except String String × Doc
  | .css sel excl, doc, opts => (cssExtract sel excl doc opts, doc)
  | .density mds mbs, doc, opts => densityExtract mds mbs doc opts
  | .xpathRegex pats, doc, _ => (xpathExtract pats doc, doc)
  | .domPosition _ _, doc, _ => (domExtract doc, doc)

/-- The sub-strategy loop of `HybridStrategy.Extract`: first success with
non-empty content wins; failures accumulate `name: error` entries. -/
def hybridLoop (opts : ExtractionOptions) :
    List BaseStrategy → Doc → List String → Except String String × Doc
  | [], doc, errs =>
    (.error ("all hybrid strategies failed: " ++ String.intercalate "; " errs), doc)
  | s :: rest, doc, errs =>
    match extractBase s doc opts with
    | (.error e, doc') => hybridLoop opts rest doc' (errs ++ [s.name ++ ": " ++ e])
    | (.ok content, doc') =>
      if content.length > 0 then (.ok content, doc')
      else hybridLoop opts rest doc' errs

/-- `Extract` of a `DetectionStrategy` (base or hybrid). -/
def Strategy.extract : Strategy → Doc → ExtractionOptions → Except String String × Doc
  | .base b, doc, opts => extractBase b doc opts
  | .hybrid subs, doc, opts =>
    if subs.isEmpty then (.error "no strategies configured for hybrid extraction", doc)
    else hybridLoop opts subs doc []

/-! ## The orchestrator (`ContentExtractor.Extract`) -/

/-- The failure warning recorded for a strategy error. -/
def failWarn (s : Strategy) (e : String) : String :=
  "Strategy '" ++ s.name ++ "' failed: " ++ e

/-- The warning recorded for content below the minimum length. -/
def shortWarn (s : Strategy) : String :=
  "Strategy '" ++ s.name ++ "' returned content too short"

/-- The strategy loop of `ContentExtractor.Extract`, with the accumulated
warnings and last error made explicit.  On exhaustion the source returns the
(empty) result together with `lastErr` — which is `nil` when no strategy
returned an error. -/
def ceLoop (opts : ExtractionOptions) :
    List Strategy → Doc → List String → Option String → (ExtractionResult × Option String) × Doc
  | [], doc, warns, lastErr =>
    (({ content := "", title := "", strategyUsed := "", warnings := warns }, lastErr), doc)
  | s :: rest, doc, warns, lastErr =>
    match s.extract doc opts with
    | (.error e, doc') => ceLoop opts rest doc' (warns ++ [failWarn s e]) (some e)
    | (.ok content, doc') =>
      if (content.length : Int) < opts.minContentLength then
        ceLoop opts rest doc' (warns ++ [shortWarn s]) lastErr
      else
        (({ content := content, title := "", strategyUsed := s.name, warnings := warns },
          none), doc')

/-- `ContentExtractor.Extract`: result, Go error value (`none` = `nil`) and
the document tree after the call. -/
def ceExtract (strategies : List Strategy) (opts : ExtractionOptions) (doc : Doc) :
    (ExtractionResult × Option String) × Doc :=
  ceLoop opts strategies doc [] none

/-! ## Title resolution (`content.go`) -/

/-- `stripHTMLTags`: delete every `<[^>]*>` occurrence (each `<` up to the
next `>`; a `<` with no later `>` is kept), fuel-bounded scanner. -/
def stripTagsGo : Nat → List Char → List Char
  | 0, l => l
  | _ + 1, [] => []
  | fuel + 1, c :: cs =>
    if c = '<' then
      match afterChar '>' cs with
      | some r => stripTagsGo fuel r
      | none => c :: stripTagsGo fuel cs
    else c :: stripTagsGo fuel cs

/-- `stripHTMLTags` on strings. -/
def stripHTMLTags (s : String) : String :=
  String.mk (stripTagsGo s.toList.length s.toList)

/-- The fixed fallback selector list of `ExtractTitle`, in priority order. -/
def fallbackSelectors : List SimpleSel :=
  [.tagClsS "h1" "title", .tagClsS "h1" "chapter-title", .tagClsS "h1" "entry-title",
   .tagClsS "h1" "post-title", .tagS "h1", .tagClsS "h2" "title",
   .tagClsS "h2" "chapter-title", .clsS "chapter-title", .clsS "story-title",
   .tagS "title"]

/-- Outcome of `ExtractTitle`: either a title string (possibly empty) or a
runtime panic (raised by `regexp.MustCompile` on an uncompilable pattern). -/
inductive TitleOutcome where
  | panicked
  | value (s : String)
  deriving DecidableEq

/-- The fallback-selector loop of `ExtractTitle`: first candidate whose
trimmed text is non-empty and shorter than 200 characters. -/
def titleFallbackLoop (doc : Doc) : List SimpleSel → String
  | [] => ""
  | sel :: rest =>
    match doc.find sel.matches with
    | [] => titleFallbackLoop doc rest
    | t :: _ =>
      let text := trimStr t.textContent
      if text ≠ "" && text.length < 200 then text else titleFallbackLoop doc rest

/-- Stages (b) and (c) of `ExtractTitle`: the regex stage (compiled with
`regexp.MustCompile`, hence a panic on an uncompilable pattern) followed by
the fallback list. -/
def extractTitleRegexStage (doc : Doc) (regexPat : Pat) : TitleOutcome :=
  if regexPat.raw ≠ "" then
    match regexPat.compiled with
    | none => .panicked
    | some f =>
      let ms := f doc.html
      if ms.length > 1 then
        let text := stripHTMLTags (trimStr (ms.getD 1 ""))
        if text ≠ "" then .value text
        else .value (titleFallbackLoop doc fallbackSelectors)
      else .value (titleFallbackLoop doc fallbackSelectors)
  else .value (titleFallbackLoop doc fallbackSelectors)

/-- `ExtractTitle doc selector regexPattern`: explicit selector first, then
the regex pattern, then the fallback list; empty string when nothing
matches. -/
def ExtractTitle (doc : Doc) (selector : Sel) (regexPat : Pat) : TitleOutcome :=
  if selector.raw ≠ "" then
    match doc.find selector.sem with
    | t :: _ =>
      let text := trimStr t.textContent
      if text ≠ "" then .value text else extractTitleRegexStage doc regexPat
    | [] => extractTitleRegexStage doc regexPat
  else extractTitleRegexStage doc regexPat

/-! ## The HTML normalizer (`formatter.HTMLNormalizer.Normalize`)

Each `regexp.ReplaceAllString` call of the source is hand-compiled to a
matcher (attempt a match at the current position, returning the replacement
text and the rest of the input after the match) driven by the generic scanner
`scanRepl`, which advances one character on failure — exactly Go's leftmost,
non-overlapping replacement with no rescanning of replacements.  Every
matcher consumes at least one character, so fuel equal to the input length
suffices. -/

/-- Generic replace-all scanner. -/
def scanRepl (m : List Char → Option (List Char × List Char)) :
    Nat → List Char → List Char
  | 0, l => l
  | _ + 1, [] => []
  | fuel + 1, c :: cs =>
    match m (c :: cs) with
    | some (r, rest) => r ++ scanRepl m fuel rest
    | none => c :: scanRepl m fuel cs

/-- Run a replace-all scanner over a list (fuel = length). -/
def runScan (m : List Char → Option (List Char × List Char)) (l : List Char) :
    List Char :=
  scanRepl m l.length l

/-- Matcher for `(?is)<tag[^>]*>.*?</tag>` (replacement empty): `<tag`
case-insensitively, any characters up to the first `>`, then lazily up to the
earliest closing `</tag>`. -/
def mTagPair (tag : List Char) (l : List Char) : Option (List Char × List Char) :=
  match l with
  | c0 :: r0 =>
    if c0 = '<' then
      match stripPreCI tag r0 with
      | some r1 =>
        match afterChar '>' r1 with
        | some r2 =>
          match searchCI ('<' :: '/' :: tag ++ ['>']) r2 with
          | some r3 => some ([], r3)
          | none => none
        | none => none
      | none => none
    else none
  | [] => none

/-- Matcher for `(?i)<tag[^>]*/?>` (replacement empty): `<tag`
case-insensitively up to the first `>`. -/
def mTagSingle (tag : List Char) (l : List Char) : Option (List Char × List Char) :=
  match l with
  | c0 :: r0 =>
    if c0 = '<' then
      match stripPreCI tag r0 with
      | some r1 =>
        match afterChar '>' r1 with
        | some r2 => some ([], r2)
        | none => none
      | none => none
    else none
  | [] => none

/-- `removeTag`: remove `<tag ...>...</tag>` pairs, then stray `<tag ...>`
tags. -/
def removeTag (l : List Char) (tag : String) : List Char :=
  runScan (mTagSingle tag.toList) (runScan (mTagPair tag.toList) l)

/-- Matcher for `<!--[\s\S]*?-->` (replacement empty). -/
def mComment (l : List Char) : Option (List Char × List Char) :=
  match stripPre "<!--".toList l with
  | some r1 =>
    match searchCI "-->".toList r1 with
    | some r2 => some ([], r2)
    | none => none
  | none => none

/-- `removeHTMLComments`. -/
def removeHTMLComments (l : List Char) : List Char :=
  runScan mComment l

/-- Matcher for `\s+on\w+=Q[^Q]*Q` with quote character `q` (replacement
empty): at least one regex-white-space character, the literal `on`, at least
one word character, `=`, then a `q`-quoted stretch. -/
def mEvent (q : Char) (l : List Char) : Option (List Char × List Char) :=
  let w := l.takeWhile regexWS
  let r1 := l.dropWhile regexWS
  if w.isEmpty then none
  else
    match r1 with
    | a :: b :: r2 =>
      if a = 'o' && b = 'n' then
        let wd := r2.takeWhile wordChar
        let r3 := r2.dropWhile wordChar
        if wd.isEmpty then none
        else
          match r3 with
          | e :: c :: r4 =>
            if e = '=' && c = q then
              match afterChar q r4 with
              | some r5 => some ([], r5)
              | none => none
            else none
          | _ => none
      else none
    | _ => none

/-- `removeEventHandlers`: double-quoted then single-quoted variant. -/
def removeEventHandlers (l : List Char) : List Char :=
  runScan (mEvent '\'') (runScan (mEvent '"') l)

/-- Matcher for `\s+name=Q[^Q]*Q` with quote character `q` (replacement
empty). -/
def mAttr (name : List Char) (q : Char) (l : List Char) :
    Option (List Char × List Char) :=
  let w := l.takeWhile regexWS
  let r1 := l.dropWhile regexWS
  if w.isEmpty then none
  else
    match stripPre name r1 with
    | some r2 =>
      match r2 with
      | e :: c :: r3 =>
        if e = '=' && c = q then
          match afterChar q r3 with
          | some r4 => some ([], r4)
          | none => none
        else none
      | _ => none
    | none => none

/-- `removeAttribute`: double-quoted then single-quoted variant. -/
def removeAttribute (l : List Char) (name : String) : List Char :=
  runScan (mAttr name.toList '\'') (runScan (mAttr name.toList '"') l)

/-- Matcher for `\s+data-[a-zA-Z0-9-]+="[^"]*"` (replacement empty). -/
def mDataDq (l : List Char) : Option (List Char × List Char) :=
  let w := l.takeWhile regexWS
  let r1 := l.dropWhile regexWS
  if w.isEmpty then none
  else
    match stripPre "data-".toList r1 with
    | some r2 =>
      let nm := r2.takeWhile dataNameChar
      let r3 := r2.dropWhile dataNameChar
      if nm.isEmpty then none
      else
        match r3 with
        | e :: c :: r4 =>
          if e = '=' && c = '"' then
            match afterChar '"' r4 with
            | some r5 => some ([], r5)
            | none => none
          else none
        | _ => none
    | none => none

/-- Matcher for the second `removeDataAttributes` regex,
`\s+data-[a-zA-Z0-9-]+'[^']*'` (note: no `=`; faithful to the source). -/
def mDataSq (l : List Char) : Option (List Char × List Char) :=
  let w := l.takeWhile regexWS
  let r1 := l.dropWhile regexWS
  if w.isEmpty then none
  else
    match stripPre "data-".toList r1 with
    | some r2 =>
      let nm := r2.takeWhile dataNameChar
      let r3 := r2.dropWhile dataNameChar
      if nm.isEmpty then none
      else
        match r3 with
        | c :: r4 =>
          if c = '\'' then
            match afterChar '\'' r4 with
            | some r5 => some ([], r5)
            | none => none
          else none
        | [] => none
    | none => none

/-- `removeDataAttributes`. -/
def removeDataAttributes (l : List Char) : List Char :=
  runScan mDataSq (runScan mDataDq l)

/-- Matcher for `(?i)<(tag)([^/>]*)>` with replacement `<$1$2/>`: the matched
tag text keeps its input casing. -/
def mFixOpen (tag : List Char) (l : List Char) : Option (List Char × List Char) :=
  match l with
  | c0 :: r0 =>
    if c0 = '<' then
      match stripPreCICap tag r0 with
      | some (cap, r1) =>
        let run := r1.takeWhile (fun c => c ≠ '/' && c ≠ '>')
        let r2 := r1.dropWhile (fun c => c ≠ '/' && c ≠ '>')
        match r2 with
        | g :: r3 => if g = '>' then some ('<' :: cap ++ run ++ ['/', '>'], r3) else none
        | [] => none
      | none => none
    else none
  | [] => none

/-- Matcher for `(?i)<(tag)([^/>]*)\s+/>` with replacement `<$1$2/>`:
leftmost-first matching makes `$2` the `[^/>]*` run with exactly its last
(white-space) character given to `\s+`. -/
def mFixClose (tag : List Char) (l : List Char) : Option (List Char × List Char) :=
  match l with
  | c0 :: r0 =>
    if c0 = '<' then
      match stripPreCICap tag r0 with
      | some (cap, r1) =>
        let run := r1.takeWhile (fun c => c ≠ '/' && c ≠ '>')
        let r2 := r1.dropWhile (fun c => c ≠ '/' && c ≠ '>')
        match r2 with
        | g :: g2 :: r3 =>
          if g = '/' && g2 = '>' then
            match run.getLast? with
            | some lastc =>
              if regexWS lastc then some ('<' :: cap ++ run.dropLast ++ ['/', '>'], r3)
              else none
            | none => none
          else none
        | _ => none
      | none => none
    else none
  | [] => none

/-- The void-element list of `fixSelfClosingTags`. -/
def selfClosingTags : List String :=
  ["br", "hr", "img", "input", "meta", "link", "area", "base", "col",
   "embed", "param", "source", "track", "wbr"]

/-- `fixSelfClosingTags`: for each void tag, normalise `<tag ...>` and then
`<tag ...\s/>` to `<tag .../>`. -/
def fixSelfClosingTags (l : List Char) : List Char :=
  selfClosingTags.foldl
    (fun acc tag => runScan (mFixClose tag.toList) (runScan (mFixOpen tag.toList) acc)) l

/-- Matcher for `<p[^>]*>\s*</p>` (replacement empty; case-sensitive). -/
def mEmptyP (l : List Char) : Option (List Char × List Char) :=
  match stripPre "<p".toList l with
  | some r1 =>
    match afterChar '>' r1 with
    | some r2 =>
      match stripPre "</p>".toList (r2.dropWhile regexWS) with
      | some r3 => some ([], r3)
      | none => none
    | none => none
  | none => none

/-- `removeEmptyParagraphs`. -/
def removeEmptyParagraphs (l : List Char) : List Char :=
  runScan mEmptyP l

/-- `[ \t]` class of `collapseWhitespace`. -/
def spTab (c : Char) : Bool :=
  c = ' ' || c = '\t'

/-- First half of `collapseWhitespace`: every maximal `[ \t]+` run becomes a
single space. -/
def collapseSpaces : List Char → List Char
  | [] => []
  | [c] => [if spTab c then ' ' else c]
  | c :: d :: rest =>
    if spTab c && spTab d then collapseSpaces (d :: rest)
    else (if spTab c then ' ' else c) :: collapseSpaces (d :: rest)

/-- Second half of `collapseWhitespace`: every maximal run of three or more
newlines becomes exactly two. -/
def collapseNewlines : List Char → List Char
  | a :: b :: c :: rest =>
    if a = '\n' && b = '\n' && c = '\n' then collapseNewlines (b :: c :: rest)
    else a :: collapseNewlines (b :: c :: rest)
  | l => l

/-- `collapseWhitespace`. -/
def collapseWhitespace (l : List Char) : List Char :=
  collapseNewlines (collapseSpaces l)

/-- Matcher for `(?i)<a[^>]*>` / `(?i)</a>` removal used by
`stripTagKeepContent`. -/
def mOpenA (tag : List Char) (l : List Char) : Option (List Char × List Char) :=
  mTagSingle tag l

/-- Matcher for the closing-tag half of `stripTagKeepContent`. -/
def mCloseA (tag : List Char) (l : List Char) : Option (List Char × List Char) :=
  match l with
  | c0 :: c1 :: r0 =>
    if c0 = '<' && c1 = '/' then
      match stripPreCI tag r0 with
      | some r1 =>
        match r1 with
        | g :: r2 => if g = '>' then some ([], r2) else none
        | [] => none
      | none => none
    else none
  | _ => none

/-- `stripTagKeepContent`: drop the element's tags, keep its content. -/
def stripTagKeepContent (l : List Char) (tag : String) : List Char :=
  runScan (mCloseA tag.toList) (runScan (mOpenA tag.toList) l)

/-- `formatter.HTMLNormalizer` (its `AllowedTags` field is unused by
`Normalize`). -/
structure HTMLNormalizer where
  preserveImages : Bool
  preserveLinks : Bool

/-- `NewHTMLNormalizer` defaults. -/
def NewHTMLNormalizer : HTMLNormalizer :=
  { preserveImages := true, preserveLinks := true }

/-- `HTMLNormalizer.Normalize`: the fixed sanitisation pipeline. -/
def HTMLNormalizer.Normalize (n : HTMLNormalizer) (s : String) : String :=
  let l0 := s.toList
  let l1 := removeTag (removeTag (removeTag l0 "script") "style") "noscript"
  let l2 := removeHTMLComments l1
  let l3 := removeEventHandlers l2
  let l4 := removeAttribute (removeAttribute (removeAttribute l3 "style") "class") "id"
  let l5 := removeDataAttributes l4
  let l6 := fixSelfClosingTags l5
  let l7 := removeEmptyParagraphs l6
  let l8 := collapseWhitespace l7
  let l9 := if !n.preserveImages then removeTag l8 "img" else l8
  let l10 := if !n.preserveLinks then stripTagKeepContent l9 "a" else l9
  String.mk (trimList l10)

/-! ## Specification-side functions

The following definitions state, in the words of the specification, the
behaviours the claims assert; the claim theorems relate them to the embedded
source functions above. -/

/-- Is this the density strategy? -/
def BaseStrategy.isDensity : BaseStrategy → Bool
  | .density _ _ => true
  | _ => false

/-- Does the strategy avoid the density strategy everywhere (the strategies
that clone before removing nodes)? -/
def Strategy.densityFree : Strategy → Bool
  | .base b => !b.isDensity
  | .hybrid subs => subs.all (fun b => !b.isDensity)

/-- Specification of an exhausted orchestrator run: every strategy, on the
document as it stands when that strategy runs, either returns an error or
returns content shorter than the minimum length. -/
def rejectedAll (opts : ExtractionOptions) : List Strategy → Doc → Bool
  | [], _ => true
  | s :: rest, doc =>
    match s.extract doc opts with
    | (.error _, doc') => rejectedAll opts rest doc'
    | (.ok content, doc') =>
      decide ((content.length : Int) < opts.minContentLength) && rejectedAll opts rest doc'

/-- The last error encountered along an orchestrator run (`none` when no
strategy returned an error). -/
def lastErrOf (opts : ExtractionOptions) : List Strategy → Doc → Option String → Option String
  | [], _, acc => acc
  | s :: rest, doc, acc =>
    match s.extract doc opts with
    | (.error e, doc') => lastErrOf opts rest doc' (some e)
    | (.ok _, doc') => lastErrOf opts rest doc' acc

/-- The warnings accumulated along a fully rejected orchestrator run: a
failure warning for each error, a too-short warning for each rejected
success. -/
def warnsOf (opts : ExtractionOptions) : List Strategy → Doc → List String
  | [], _ => []
  | s :: rest, doc =>
    match s.extract doc opts with
    | (.error e, doc') => failWarn s e :: warnsOf opts rest doc'
    | (.ok _, doc') => shortWarn s :: warnsOf opts rest doc'

/-- The output of the first hybrid sub-strategy that succeeds with non-empty
content (sub-strategies run in list order on the threaded document). -/
def hybridFirstHit (opts : ExtractionOptions) : List BaseStrategy → Doc → Option String
  | [], _ => none
  | s :: rest, doc =>
    match extractBase s doc opts with
    | (.error _, doc') => hybridFirstHit opts rest doc'
    | (.ok content, doc') =>
      if content.length > 0 then some content else hybridFirstHit opts rest doc'

/-- When every hybrid sub-strategy fails, the list of `name: error` messages
in order; `none` as soon as any sub-strategy returns without error. -/
def hybridAllErrs (opts : ExtractionOptions) : List BaseStrategy → Doc → Option (List String)
  | [], _ => some []
  | s :: rest, doc =>
    match extractBase s doc opts with
    | (.error e, doc') =>
      (hybridAllErrs opts rest doc').map (fun ms => (s.name ++ ": " ++ e) :: ms)
    | (.ok _, _) => none

/-- The candidates of `findBestBlockByDensity` that survive every filter
including the density threshold, paired with their scores. -/
def eligibleCands (minDensity : Frac) (minSize : Int) (cands : List (List Nat × HNode)) :
    List ((List Nat × HNode) × Frac) :=
  cands.filterMap (fun pn =>
    match candScore minSize pn.2 with
    | some (density, score) => if minDensity.le density then some (pn, score) else none
    | none => none)

/-- The earliest element with the strictly highest score: a later element
displaces an earlier one only when its score is strictly greater, so equal
scores keep the earliest-encountered element. -/
def pickFirstMax {α : Type} : List (α × Frac) → Option (α × Frac)
  | [] => none
  | x :: rest =>
    match pickFirstMax rest with
    | none => some x
    | some y => if x.2.lt y.2 then some y else some x

/-- The trimmed first capturing group of the first pattern whose group is
non-empty after trimming; uncompilable patterns are skipped. -/
def firstCapture (fullHTML : String) : List Pat → Option String
  | [] => none
  | p :: rest =>
    match p.compiled with
    | none => firstCapture fullHTML rest
    | some f =>
      let ms := f fullHTML
      if ms.length > 1 && trimStr (ms.getD 1 "") ≠ "" then some (trimStr (ms.getD 1 ""))
      else firstCapture fullHTML rest

/-- Stage (a) of the title resolver: the explicit selector's first match,
trimmed, if non-empty. -/
def titleStageA (doc : Doc) (selector : Sel) : Option String :=
  if selector.raw ≠ "" then
    match doc.find selector.sem with
    | t :: _ =>
      let text := trimStr t.textContent
      if text ≠ "" then some text else none
    | [] => none
  else none

/-- Stage (b) of the title resolver: the compiled regex pattern's tag-stripped
trimmed first capture, if non-empty. -/
def titleStageB (doc : Doc) (regexPat : Pat) : Option String :=
  if regexPat.raw ≠ "" then
    match regexPat.compiled with
    | none => none
    | some f =>
      let ms := f doc.html
      if ms.length > 1 then
        let text := stripHTMLTags (trimStr (ms.getD 1 ""))
        if text ≠ "" then some text else none
      else none
  else none

/-! ## Concrete sample inputs used by witnesses and counterexamples -/

/-- A selector for `.x` elements. -/
def selX : Sel := ⟨".x", fun n => hasToken (n.attr "class").toList "x".toList⟩

/-- A selector for `.y` elements (matches nothing in the samples). -/
def selY : Sel := ⟨".y", fun n => hasToken (n.attr "class").toList "y".toList⟩

/-- An unconfigured (empty) selector. -/
def selNil : Sel := ⟨"", fun _ => false⟩

/-- An uncompilable regex pattern (`regexp.Compile("(")` fails in Go). -/
def patBad : Pat := ⟨"(", none⟩

/-- A compilable pattern with one capturing group; its abstract match
function returns a whole match and the group `" cap "`. -/
def patCap : Pat :=
  ⟨"<div id=\"story\">(.*?)</div>", some (fun _ => ["<div id=\"story\"> cap </div>", " cap "])⟩

/-- A small page with one `.x` division containing the text `hi`. -/
def docX : Doc :=
  ⟨[.elem "html" [] [.elem "body" [] [.elem "div" [("class", "x")] [.text "hi"]]]]⟩

/-- A small page with one `.x` division containing the text `ok`. -/
def docOk : Doc :=
  ⟨[.elem "html" [] [.elem "body" [] [.elem "div" [("class", "x")] [.text "ok"]]]]⟩

/-- Two hundred `a` characters. -/
def txt200 : String := String.mk (List.replicate 200 'a')

/-- A page whose best density block contains a `script` element: the density
strategy's winner-side cleanup mutates this tree. -/
def docDensity : Doc :=
  ⟨[.elem "html" [] [.elem "body" []
    [.elem "div" [] [.text txt200, .elem "script" [] [.text "x"]]]]]⟩

/-- A page with an `h1` title. -/
def docTitle : Doc :=
  ⟨[.elem "html" [] [.elem "body" []
    [.elem "h1" [("class", "title")] [.text " The Title "],
     .elem "div" [("class", "x")] [.text "hi"]]]]⟩

/-- No two adjacent space characters (an invariant of `collapseSpaces`
output). -/
def noDblSpace : List Char → Bool
  | a :: b :: rest => !(a = ' ' && b = ' ') && noDblSpace (b :: rest)
  | _ => true

/-- No three adjacent newline characters (an invariant of `collapseNewlines`
output). -/
def noTripleNl : List Char → Bool
  | a :: b :: c :: rest => !(a = '\n' && b = '\n' && c = '\n') && noTripleNl (b :: c :: rest)
  | _ => true

/-! ## Helper lemmas -/

theorem Strategy.name_ne_empty (s : Strategy) : s.name ≠ "" := by
  cases s with
  | base b => cases b <;> simp [Strategy.name, BaseStrategy.name]
  | hybrid _ => simp [Strategy.name]

theorem extractBase_snd_eq (b : BaseStrategy) (doc : Doc) (opts : ExtractionOptions)
    (h : b.isDensity = false) : (extractBase b doc opts).2 = doc := by
  cases b with
  | css sel excl => rfl
  | density mds mbs => simp [BaseStrategy.isDensity] at h
  | xpathRegex pats => rfl
  | domPosition a b => rfl

theorem hybridLoop_snd_eq (opts : ExtractionOptions) :
    ∀ (subs : List BaseStrategy) (doc : Doc) (errs : List String),
      subs.all (fun b => !b.isDensity) = true →
      (hybridLoop opts subs doc errs).2 = doc := by
  intro subs
  induction subs with
  | nil => intro doc errs _; rfl
  | cons s rest ih =>
    intro doc errs h
    simp only [List.all_cons, Bool.and_eq_true, Bool.not_eq_true'] at h
    obtain ⟨hs, hrest⟩ := h
    have hpres := extractBase_snd_eq s doc opts hs
    rcases hx : extractBase s doc opts with ⟨r, doc'⟩
    have hdoc : doc' = doc := by rw [hx] at hpres; exact hpres
    subst hdoc
    cases r with
    | error e =>
      simp only [hybridLoop, hx]
      exact ih _ _ (by simpa using hrest)
    | ok content =>
      simp only [hybridLoop, hx]
      by_cases hc : content.length > 0
      · simp [hc]
      · simp only [hc, if_false]
        exact ih _ _ (by simpa using hrest)

theorem hybridLoop_hit (opts : ExtractionOptions) :
    ∀ (subs : List BaseStrategy) (doc : Doc) (errs : List String) (c : String),
      hybridFirstHit opts subs doc = some c →
      (hybridLoop opts subs doc errs).1 = .ok c := by
  intro subs
  induction subs with
  | nil => intro doc errs c h; simp [hybridFirstHit] at h
  | cons s rest ih =>
    intro doc errs c h
    rcases hx : extractBase s doc opts with ⟨r, doc'⟩
    cases r with
    | error e =>
      simp only [hybridFirstHit, hx] at h
      simp only [hybridLoop, hx]
      exact ih _ _ _ h
    | ok content =>
      simp only [hybridFirstHit, hx] at h
      simp only [hybridLoop, hx]
      by_cases hc : content.length > 0
      · simp only [hc, if_true] at h ⊢
        cases h; rfl
      · simp only [hc, if_false] at h ⊢
        exact ih _ _ _ h

theorem hybridLoop_allErrs (opts : ExtractionOptions) :
    ∀ (subs : List BaseStrategy) (doc : Doc) (errs msgs : List String),
      hybridAllErrs opts subs doc = some msgs →
      (hybridLoop opts subs doc errs).1 =
        .error ("all hybrid strategies failed: " ++ String.intercalate "; " (errs ++ msgs)) := by
  intro subs
  induction subs with
  | nil =>
    intro doc errs msgs h
    simp only [hybridAllErrs, Option.some.injEq] at h
    subst h
    simp [hybridLoop]
  | cons s rest ih =>
    intro doc errs msgs h
    rcases hx : extractBase s doc opts with ⟨r, doc'⟩
    cases r with
    | error e =>
      rcases hr : hybridAllErrs opts rest doc' with _ | ms
      · rw [hybridAllErrs, hx] at h
        simp [hr] at h
      · rw [hybridAllErrs, hx] at h
        simp only [hr, Option.map, Option.some.injEq] at h
        subst h
        simp only [hybridLoop, hx]
        have := ih doc' (errs ++ [s.name ++ ": " ++ e]) ms hr
        simpa [List.append_assoc] using this
    | ok content =>
      rw [hybridAllErrs, hx] at h
      simp at h

theorem strLenPos (g : String) (h : g ≠ "") : 0 < g.length := by
  cases g with
  | mk data =>
    cases data with
    | nil => exact absurd rfl h
    | cons a t => simp [String.length]

theorem xpathLoop_spec (fullHTML : String) :
    ∀ pats : List Pat,
      xpathLoop fullHTML pats =
        (match firstCapture fullHTML pats with
         | some c => .ok c
         | none => .error "no regex patterns matched") := by
  intro pats
  induction pats with
  | nil => rfl
  | cons p rest ih =>
    rcases hc : p.compiled with _ | f
    · rw [xpathLoop, firstCapture, hc]
      exact ih
    · rw [xpathLoop, firstCapture, hc]
      simp only [ih]
      generalize trimStr ((f fullHTML).getD 1 "") = g
      by_cases hlen : (f fullHTML).length > 1
      · by_cases hne : g = ""
        · subst hne
          simp [hlen]
        · have hpos : 0 < g.length := strLenPos g hne
          simp [hlen, hne, hpos]
      · simp [hlen]

theorem ceLoop_rejected (opts : ExtractionOptions) :
    ∀ (ss : List Strategy) (doc : Doc) (warns : List String) (acc : Option String),
      rejectedAll opts ss doc = true →
      (ceLoop opts ss doc warns acc).1 =
        ({ content := "", title := "", strategyUsed := "",
           warnings := warns ++ warnsOf opts ss doc }, lastErrOf opts ss doc acc) := by
  intro ss
  induction ss with
  | nil => intro doc warns acc _; simp [ceLoop, warnsOf, lastErrOf]
  | cons s rest ih =>
    intro doc warns acc h
    rcases hx : s.extract doc opts with ⟨r, doc'⟩
    cases r with
    | error e =>
      rw [rejectedAll, hx] at h
      rw [ceLoop, warnsOf, lastErrOf, hx]
      simpa [List.append_assoc] using ih doc' (warns ++ [failWarn s e]) (some e) h
    | ok content =>
      rw [rejectedAll, hx] at h
      simp only [Bool.and_eq_true, decide_eq_true_eq] at h
      obtain ⟨hlt, hrest⟩ := h
      rw [ceLoop, warnsOf, lastErrOf, hx]
      simp only [hlt, if_true]
      simpa [List.append_assoc] using ih doc' (warns ++ [shortWarn s]) acc hrest

theorem ceLoop_accepted (opts : ExtractionOptions) :
    ∀ (ss : List Strategy) (doc : Doc) (warns : List String) (acc : Option String),
      ((ceLoop opts ss doc warns acc).1.1.strategyUsed ≠ "" →
        (ceLoop opts ss doc warns acc).1.2 = none ∧
        opts.minContentLength ≤ ((ceLoop opts ss doc warns acc).1.1.content.length : Int)) ∧
      ((ceLoop opts ss doc warns acc).1.1.strategyUsed = "" →
        (ceLoop opts ss doc warns acc).1.1.content = "") := by
  intro ss
  induction ss with
  | nil =>
    intro doc warns acc
    refine ⟨fun h => absurd rfl h, fun _ => rfl⟩
  | cons s rest ih =>
    intro doc warns acc
    rcases hx : s.extract doc opts with ⟨r, doc'⟩
    cases r with
    | error e =>
      rw [ceLoop, hx]
      exact ih doc' (warns ++ [failWarn s e]) (some e)
    | ok content =>
      rw [ceLoop, hx]
      by_cases hlt : (content.length : Int) < opts.minContentLength
      · simp only [hlt, if_true]
        exact ih doc' (warns ++ [shortWarn s]) acc
      · simp only [hlt, if_false]
        refine ⟨fun _ => ⟨by simp, by omega⟩, fun h => absurd h (Strategy.name_ne_empty s)⟩

theorem Frac.lt_iff (a b : Frac) (ha : 0 < a.den) (hb : 0 < b.den) :
    a.lt b = true ↔ a.val < b.val := by
  simp only [Frac.lt, decide_eq_true_eq, Frac.val]
  rw [div_lt_div_iff₀ (by exact_mod_cast ha) (by exact_mod_cast hb)]
  constructor
  · intro h; exact_mod_cast h
  · intro h; exact_mod_cast h

theorem Frac.le_iff (a b : Frac) (ha : 0 < a.den) (hb : 0 < b.den) :
    a.le b = true ↔ a.val ≤ b.val := by
  simp only [Frac.le, decide_eq_true_eq, Frac.val]
  rw [div_le_div_iff₀ (by exact_mod_cast ha) (by exact_mod_cast hb)]
  constructor
  · intro h; exact_mod_cast h
  · intro h; exact_mod_cast h

theorem candScore_den_pos (minSize : Int) (n : HNode) (d s : Frac)
    (h : candScore minSize n = some (d, s)) : 0 < d.den ∧ 0 < s.den := by
  simp only [candScore] at h
  split_ifs at h
  all_goals
    injection h with hpair
  all_goals
    injection hpair with hd hs
  all_goals subst hd
  all_goals subst hs
  all_goals refine ⟨?_, ?_⟩ <;> dsimp only [Frac.mul] <;> omega

theorem candScore_num_pos (minSize : Int) (n : HNode) (d s : Frac)
    (hms : 1 ≤ minSize) (h : candScore minSize n = some (d, s)) :
    0 < d.num ∧ 0 < s.num := by
  simp only [candScore] at h
  split_ifs at h
  all_goals
    injection h with hpair
  all_goals
    injection hpair with hd hs
  all_goals subst hd
  all_goals subst hs
  all_goals refine ⟨?_, ?_⟩ <;> dsimp only [Frac.mul] <;> omega

theorem eligible_mem_inv (minD : Frac) (minSize : Int) (l : List (List Nat × HNode))
    (x : (List Nat × HNode) × Frac) (hx : x ∈ eligibleCands minD minSize l) :
    ∃ d, candScore minSize x.1.2 = some (d, x.2) ∧ minD.le d = true := by
  unfold eligibleCands at hx
  rw [List.mem_filterMap] at hx
  obtain ⟨pn, _, hf⟩ := hx
  rcases hcs : candScore minSize pn.2 with _ | ⟨d, s⟩
  · rw [hcs] at hf; simp at hf
  · rw [hcs] at hf
    by_cases hle : minD.le d = true
    · simp only [hle, if_true, Option.some.injEq] at hf
      subst hf
      exact ⟨d, hcs, hle⟩
    · simp [hle] at hf

theorem eligible_den_pos (minD : Frac) (minSize : Int) (l : List (List Nat × HNode)) :
    ∀ x ∈ eligibleCands minD minSize l, 0 < x.2.den := by
  intro x hx
  obtain ⟨d, hcs, _⟩ := eligible_mem_inv minD minSize l x hx
  exact (candScore_den_pos minSize x.1.2 d x.2 hcs).2

theorem eligible_num_pos (minD : Frac) (minSize : Int) (l : List (List Nat × HNode))
    (hms : 1 ≤ minSize) : ∀ x ∈ eligibleCands minD minSize l, 0 < x.2.num := by
  intro x hx
  obtain ⟨d, hcs, _⟩ := eligible_mem_inv minD minSize l x hx
  exact (candScore_num_pos minSize x.1.2 d x.2 hms hcs).2

theorem pickFirstMax_isSome {α : Type} (x : α × Frac) (rest : List (α × Frac)) :
    pickFirstMax (x :: rest) ≠ none := by
  rw [pickFirstMax]
  rcases hr : pickFirstMax rest with _ | z
  · simp [hr]
  · simp only [hr]
    split <;> simp

theorem pickFirstMax_mem {α : Type} :
    ∀ (l : List (α × Frac)) (y : α × Frac), pickFirstMax l = some y → y ∈ l := by
  intro l
  induction l with
  | nil => intro y h; simp [pickFirstMax] at h
  | cons x rest ih =>
    intro y h
    rw [pickFirstMax] at h
    rcases hr : pickFirstMax rest with _ | z
    · simp only [hr, Option.some.injEq] at h
      subst h
      exact List.mem_cons_self x rest
    · simp only [hr] at h
      by_cases hlt : x.2.lt z.2 = true
      · rw [if_pos hlt] at h
        simp only [Option.some.injEq] at h
        subst h
        exact List.mem_cons_of_mem x (ih z hr)
      · rw [if_neg hlt] at h
        simp only [Option.some.injEq] at h
        subst h
        exact List.mem_cons_self x rest

theorem pickFirstMax_max {α : Type} :
    ∀ (l : List (α × Frac)), (∀ x ∈ l, 0 < x.2.den) →
      ∀ y, pickFirstMax l = some y → ∀ x ∈ l, x.2.le y.2 = true := by
  intro l
  induction l with
  | nil => intro _ y h; simp [pickFirstMax] at h
  | cons a rest ih =>
    intro hden y h x hx
    have hda : 0 < a.2.den := hden a (List.mem_cons_self a rest)
    rw [pickFirstMax] at h
    rcases hr : pickFirstMax rest with _ | z
    · simp only [hr, Option.some.injEq] at h
      subst h
      rcases List.mem_cons.mp hx with hxa | hxr
      · subst hxa
        rw [Frac.le_iff _ _ hda hda]
      · cases rest with
        | nil => simp at hxr
        | cons b t => exact absurd hr (pickFirstMax_isSome b t)
    · simp only [hr] at h
      have hz : z ∈ rest := pickFirstMax_mem rest z hr
      have hdz : 0 < z.2.den := hden z (List.mem_cons_of_mem a hz)
      have hrest : ∀ x ∈ rest, x.2.le z.2 = true :=
        ih (fun u hu => hden u (List.mem_cons_of_mem a hu)) z hr
      by_cases hlt : a.2.lt z.2 = true
      · rw [if_pos hlt] at h
        simp only [Option.some.injEq] at h
        subst h
        rcases List.mem_cons.mp hx with hxa | hxr
        · subst hxa
          rw [Frac.le_iff _ _ hda hdz]
          exact le_of_lt ((Frac.lt_iff _ _ hda hdz).mp hlt)
        · exact hrest x hxr
      · rw [if_neg hlt] at h
        simp only [Option.some.injEq] at h
        subst h
        rcases List.mem_cons.mp hx with hxa | hxr
        · subst hxa
          rw [Frac.le_iff _ _ hda hda]
        · have hdx : 0 < x.2.den := hden x (List.mem_cons_of_mem a hxr)
          have hxz := (Frac.le_iff _ _ hdx hdz).mp (hrest x hxr)
          have hza : z.2.val ≤ a.2.val := by
            have hnot := (Frac.lt_iff _ _ hda hdz).not.mp (by simpa using hlt)
            linarith [not_lt.mp hnot]
          rw [Frac.le_iff _ _ hdx hda]
          linarith

theorem eligibleCands_cons_none (minD : Frac) (minSize : Int) (pn : List Nat × HNode)
    (rest : List (List Nat × HNode)) (h : candScore minSize pn.2 = none) :
    eligibleCands minD minSize (pn :: rest) = eligibleCands minD minSize rest := by
  unfold eligibleCands
  rw [List.filterMap_cons]
  simp [h]

theorem eligibleCands_cons_skip (minD : Frac) (minSize : Int) (pn : List Nat × HNode)
    (rest : List (List Nat × HNode)) (d s : Frac) (h : candScore minSize pn.2 = some (d, s))
    (hle : ¬minD.le d = true) :
    eligibleCands minD minSize (pn :: rest) = eligibleCands minD minSize rest := by
  unfold eligibleCands
  rw [List.filterMap_cons]
  simp [h, hle]

theorem eligibleCands_cons_hit (minD : Frac) (minSize : Int) (pn : List Nat × HNode)
    (rest : List (List Nat × HNode)) (d s : Frac) (h : candScore minSize pn.2 = some (d, s))
    (hle : minD.le d = true) :
    eligibleCands minD minSize (pn :: rest) = (pn, s) :: eligibleCands minD minSize rest := by
  unfold eligibleCands
  rw [List.filterMap_cons]
  simp [h, hle]

theorem bestLoop_acc (minD : Frac) (minSize : Int) :
    ∀ (l : List (List Nat × HNode)) (best : Option (List Nat × HNode)) (bs : Frac),
      0 < bs.den →
      bestLoop minD minSize l best bs =
        (match pickFirstMax (eligibleCands minD minSize l) with
         | some y => if bs.lt y.2 = true then some y.1 else best
         | none => best) := by
  intro l
  induction l with
  | nil => intro best bs _; simp [bestLoop, eligibleCands, pickFirstMax]
  | cons pn rest ih =>
    intro best bs hbs
    rcases hcs : candScore minSize pn.2 with _ | ⟨d, s⟩
    · rw [bestLoop]
      simp only [hcs]
      rw [eligibleCands_cons_none minD minSize pn rest hcs]
      exact ih best bs hbs
    · have hds := candScore_den_pos minSize pn.2 d s hcs
      by_cases hle : minD.le d = true
      · rw [eligibleCands_cons_hit minD minSize pn rest d s hcs hle]
        rw [bestLoop]
        simp only [hcs]
        rw [pickFirstMax]
        rcases hr : pickFirstMax (eligibleCands minD minSize rest) with _ | z
        · by_cases hlt : bs.lt s = true
          · simp only [hlt, hle, Bool.and_self, if_true]
            rw [ih (some pn) s hds.2]
            simp [hr, hlt]
          · have hcond : (bs.lt s && minD.le d) = false := by
              simp [Bool.and_eq_false_iff]
              intro hc
              exact absurd hc hlt
            rw [hcond]
            simp only [Bool.false_eq_true, if_false]
            rw [ih best bs hbs]
            simp [hr, hlt]
        · have hz := pickFirstMax_mem _ z hr
          have hdz : 0 < z.2.den :=
            eligible_den_pos minD minSize rest z hz
          by_cases hlt : bs.lt s = true
          · have hcond : (bs.lt s && minD.le d) = true := by simp [hlt, hle]
            rw [hcond]
            simp only [if_true]
            rw [ih (some pn) s hds.2]
            simp only [hr]
            by_cases hsz : s.lt z.2 = true
            · have hbz : bs.lt z.2 = true := by
                rw [Frac.lt_iff _ _ hbs hdz]
                calc bs.val < s.val := (Frac.lt_iff _ _ hbs hds.2).mp hlt
                  _ < z.2.val := (Frac.lt_iff _ _ hds.2 hdz).mp hsz
              simp [hsz, hbz]
            · simp [hsz, hlt]
          · have hcond : (bs.lt s && minD.le d) = false := by
              simp [Bool.and_eq_false_iff]
              intro hc
              exact absurd hc hlt
            rw [hcond]
            simp only [Bool.false_eq_true, if_false]
            rw [ih best bs hbs]
            simp only [hr]
            by_cases hsz : s.lt z.2 = true
            · simp [hsz]
            · have hbz : ¬bs.lt z.2 = true := by
                rw [Frac.lt_iff _ _ hbs hdz]
                have h1 : z.2.val ≤ s.val :=
                  not_lt.mp ((Frac.lt_iff _ _ hds.2 hdz).not.mp (by simpa using hsz))
                have h2 : s.val ≤ bs.val :=
                  not_lt.mp ((Frac.lt_iff _ _ hbs hds.2).not.mp (by simpa using hlt))
                exact not_lt.mpr (by linarith)
              simp [hsz, hlt, hbz]
      · rw [eligibleCands_cons_skip minD minSize pn rest d s hcs hle]
        rw [bestLoop]
        simp only [hcs]
        have hcond : (bs.lt s && minD.le d) = false := by
          have hlef : minD.le d = false := by simpa using hle
          simp [hlef]
        rw [hcond]
        simp only [Bool.false_eq_true, if_false]
        exact ih best bs hbs

/-! ## Claim theorems -/

/-- C7: for a non-empty configured selector, the selector strategy fails with
the no-match error when the selector matches no element, and otherwise
succeeds with the serialized, whitespace-trimmed inner markup of the earliest
match in document order, cleaned of exclusion-selector subtrees and (when
`cleanScripts` is set) of script/style/noscript descendants. -/
theorem C7_selector_strategy (sel : Sel) (excl : List Sel) (doc : Doc)
    (opts : ExtractionOptions) (h : sel.raw ≠ "") :
    (doc.find sel.sem = [] →
      cssExtract sel excl doc opts =
        .error ("selector '" ++ sel.raw ++ "' matched no elements"))
    ∧ (∀ m rest, doc.find sel.sem = m :: rest →
      cssExtract sel excl doc opts = .ok (trimStr (cssClean excl opts m).innerHTML)) := by
  constructor
  · intro hf
    simp [cssExtract, h, hf]
  · intro m rest hf
    simp [cssExtract, h, hf]

/-- C7 witness: on a concrete page, the `.x` selector has a unique match and
the strategy returns its trimmed inner markup. -/
theorem C7_selector_strategy_witness :
    selX.raw ≠ "" ∧
    docX.find selX.sem = [HNode.elem "div" [("class", "x")] [.text "hi"]] ∧
    cssExtract selX [] docX DefaultExtractionOptions = .ok "hi" :=
  ⟨by decide, by rfl,
   ((C7_selector_strategy selX [] docX DefaultExtractionOptions (by decide)).2
     (HNode.elem "div" [("class", "x")] [.text "hi"]) [] (by rfl)).trans (by decide)⟩

/-- C8: for a non-empty pattern list, the pattern strategy serializes the
whole document once and returns the trimmed first capturing group of the
first pattern whose group is non-empty after trimming (uncompilable patterns
skipped silently), and fails with the no-match error exactly when no pattern
yields a non-empty capture. -/
theorem C8_pattern_strategy (pats : List Pat) (doc : Doc) (h : pats ≠ []) :
    xpathExtract pats doc =
      (match firstCapture doc.html pats with
       | some c => .ok c
       | none => .error "no regex patterns matched") := by
  rw [xpathExtract, if_neg (by simpa using h)]
  exact xpathLoop_spec doc.html pats

/-- C8 witness: an uncompilable pattern is skipped and the next pattern's
capture is returned trimmed. -/
theorem C8_pattern_strategy_witness :
    ([patBad, patCap] : List Pat) ≠ [] ∧
    firstCapture docX.html [patBad, patCap] = some "cap" ∧
    xpathExtract [patBad, patCap] docX = .ok "cap" :=
  ⟨List.cons_ne_nil _ _, by decide,
   (C8_pattern_strategy [patBad, patCap] docX (List.cons_ne_nil _ _)).trans (by decide)⟩

/-- C10: `ExtractTitle` compiles its pattern with `regexp.MustCompile`, so on
a non-empty uncompilable pattern it panics instead of returning a title,
whereas the pattern strategy skips the same uncompilable pattern and fails
with its ordinary no-match error. -/
theorem C10_title_regex_panics :
    ExtractTitle docX selNil patBad = .panicked ∧
    patBad.raw ≠ "" ∧ patBad.compiled.isNone = true ∧
    xpathExtract [patBad] docX = .error "no regex patterns matched" :=
  ⟨by decide, by decide, by decide, by decide⟩

/-- C5: the hybrid strategy invokes its sub-strategies in list order and
returns the output of the first one succeeding with non-empty content, never
preferring a later result; and when every sub-strategy fails it returns the
aggregated error listing each failed sub-strategy's name and error message. -/
theorem C5_hybrid_priority (opts : ExtractionOptions) (subs : List BaseStrategy) (doc : Doc) :
    (∀ c, hybridFirstHit opts subs doc = some c →
      ((Strategy.hybrid subs).extract doc opts).1 = .ok c)
    ∧ (∀ msgs, subs ≠ [] → hybridAllErrs opts subs doc = some msgs →
      ((Strategy.hybrid subs).extract doc opts).1 =
        .error ("all hybrid strategies failed: " ++ String.intercalate "; " msgs)) := by
  constructor
  · intro c hc
    cases subs with
    | nil => simp [hybridFirstHit] at hc
    | cons s rest =>
      rw [Strategy.extract, if_neg (by simp)]
      exact hybridLoop_hit opts (s :: rest) doc [] c hc
  · intro msgs hne hm
    cases subs with
    | nil => exact absurd rfl hne
    | cons s rest =>
      rw [Strategy.extract, if_neg (by simp)]
      simpa using hybridLoop_allErrs opts (s :: rest) doc [] msgs hm

/-- C5 witness: with a failing selector sub-strategy ahead of a succeeding
one, the hybrid result is the first non-empty success. -/
theorem C5_hybrid_priority_witness :
    hybridFirstHit DefaultExtractionOptions [.css selY [], .css selX []] docX = some "hi" ∧
    ((Strategy.hybrid [.css selY [], .css selX []]).extract docX
      DefaultExtractionOptions).1 = .ok "hi" :=
  ⟨by decide,
   (C5_hybrid_priority DefaultExtractionOptions [.css selY [], .css selX []] docX).1
     "hi" (by decide)⟩

/-- C2 counterexample: the density strategy wraps the winning block without
cloning it, so removing its script descendants mutates the original tree —
the document serializes differently after the call. -/
theorem C2_density_mutates :
    ((Strategy.base (.density ⟨0, 1⟩ 0)).extract docDensity
      DefaultExtractionOptions).2.html ≠ docDensity.html := by
  decide

/-- C2 (amended): every strategy that avoids the density strategy — selector,
pattern, structural, and hybrid over those — leaves the document tree
untouched; only the density strategy can mutate the original document. -/
theorem C2_density_free_no_mutation (s : Strategy) (h : s.densityFree = true)
    (doc : Doc) (opts : ExtractionOptions) : (s.extract doc opts).2 = doc := by
  cases s with
  | base b =>
    cases b with
    | css sel excl => rfl
    | density mds mbs => simp [Strategy.densityFree, BaseStrategy.isDensity] at h
    | xpathRegex pats => rfl
    | domPosition md mw => rfl
  | hybrid subs =>
    rw [Strategy.extract]
    by_cases he : subs.isEmpty
    · simp [he]
    · simp only [he, Bool.false_eq_true, if_false]
      exact hybridLoop_snd_eq opts subs doc []
        (by simpa [Strategy.densityFree] using h)

/-- C2 witness: a concrete selector strategy leaves a concrete document
unchanged. -/
theorem C2_density_free_no_mutation_witness :
    (Strategy.base (.css selX [])).densityFree = true ∧
    ((Strategy.base (.css selX [])).extract docX DefaultExtractionOptions).2 = docX :=
  ⟨by decide,
   C2_density_free_no_mutation (Strategy.base (.css selX [])) (by decide) docX
     DefaultExtractionOptions⟩

/-- C1 counterexample: a run in which the only strategy succeeds but with
content below the minimum is exhausted without acceptance, yet `Extract`
returns a `nil` error (a success) with empty content rather than a
failure. -/
theorem C1_short_only_nil_error :
    rejectedAll DefaultExtractionOptions [.base (.css selX [])] docX = true ∧
    (ceExtract [.base (.css selX [])] DefaultExtractionOptions docX).1.2 = none ∧
    (ceExtract [.base (.css selX [])] DefaultExtractionOptions docX).1.1.content = "" := by
  refine ⟨by decide, by decide, by decide⟩

/-- C1 (amended): when every strategy is exhausted without acceptance, the
orchestrator returns the empty result with all accumulated warnings together
with the last encountered error — which is the `nil` error (a success without
accepted content) when every rejection was for short content only. -/
theorem C1_exhaustion (strategies : List Strategy) (opts : ExtractionOptions) (doc : Doc)
    (h : rejectedAll opts strategies doc = true) :
    (ceExtract strategies opts doc).1 =
      ({ content := "", title := "", strategyUsed := "",
         warnings := warnsOf opts strategies doc }, lastErrOf opts strategies doc none) := by
  simpa using ceLoop_rejected opts strategies doc [] none h

/-- C1 witness: a single always-failing strategy yields the failure warning
and its error as the returned error. -/
theorem C1_exhaustion_witness :
    rejectedAll DefaultExtractionOptions [.base (.css selNil [])] docX = true ∧
    (ceExtract [.base (.css selNil [])] DefaultExtractionOptions docX).1 =
      ({ content := "", title := "", strategyUsed := "",
         warnings := ["Strategy 'css_selector' failed: no CSS selector configured"] },
       some "no CSS selector configured") :=
  ⟨by decide,
   (C1_exhaustion [.base (.css selNil [])] DefaultExtractionOptions docX (by decide)).trans
     (by decide)⟩

/-- C4 counterexample: `Extract` can return a `nil` error whose result
content is shorter than `minContentLength` (the exhausted all-short run), so
a nil-error return alone does not guarantee the length bound. -/
theorem C4_nil_error_short_content :
    (ceExtract [.base (.css selX [])] DefaultExtractionOptions docOk).1.2 = none ∧
    ((ceExtract [.base (.css selX [])] DefaultExtractionOptions
      docOk).1.1.content.length : Int) < DefaultExtractionOptions.minContentLength := by
  refine ⟨by decide, by decide⟩

/-- C4 (amended): whenever the orchestrator actually accepts a strategy
(non-empty `strategyUsed`), the error is `nil` and the content length is at
least `minContentLength`; when no strategy was accepted the returned content
is empty; and a success below the minimum length is recorded as a too-short
warning while the chain proceeds with the remaining strategies. -/
theorem C4_accepted_length (strategies : List Strategy) (opts : ExtractionOptions) (doc : Doc) :
    ((ceExtract strategies opts doc).1.1.strategyUsed ≠ "" →
      (ceExtract strategies opts doc).1.2 = none ∧
      opts.minContentLength ≤ ((ceExtract strategies opts doc).1.1.content.length : Int))
    ∧ ((ceExtract strategies opts doc).1.1.strategyUsed = "" →
      (ceExtract strategies opts doc).1.1.content = "")
    ∧ (∀ s rest content doc', s.extract doc opts = (.ok content, doc') →
      (content.length : Int) < opts.minContentLength →
      (ceExtract (s :: rest) opts doc).1 = (ceLoop opts rest doc' [shortWarn s] none).1) := by
  refine ⟨(ceLoop_accepted opts strategies doc [] none).1,
          (ceLoop_accepted opts strategies doc [] none).2, ?_⟩
  intro s rest content doc' hx hlt
  rw [ceExtract, ceLoop, hx]
  simp [hlt]

/-- C4 witness: with the minimum lowered to 2 the selector strategy is
accepted and the bound holds. -/
theorem C4_accepted_length_witness :
    (ceExtract [.base (.css selX [])]
      { titleSelector := "", titleRegex := "", minContentLength := 2,
        preserveImages := true, cleanScripts := true } docX).1.1.strategyUsed ≠ "" ∧
    ((ceExtract [.base (.css selX [])]
      { titleSelector := "", titleRegex := "", minContentLength := 2,
        preserveImages := true, cleanScripts := true } docX).1.2 = none ∧
     (2 : Int) ≤ ((ceExtract [.base (.css selX [])]
      { titleSelector := "", titleRegex := "", minContentLength := 2,
        preserveImages := true, cleanScripts := true } docX).1.1.content.length : Int)) :=
  ⟨by decide,
   (C4_accepted_length [.base (.css selX [])]
      { titleSelector := "", titleRegex := "", minContentLength := 2,
        preserveImages := true, cleanScripts := true } docX).1 (by decide)⟩

/-- C6: with the (always defaulted) positive minimum block size, the density
winner is computed over the document-order candidate list: it is the earliest
candidate attaining the strictly highest `candScore` among those passing
every filter including the density threshold (a later equal score never
displaces an earlier winner), and that winner's score dominates every
eligible candidate's score. -/
theorem C6_density_winner (cands : List (List Nat × HNode)) (minD : Frac) (minSize : Int)
    (hms : 1 ≤ minSize) :
    findBestBlockByDensity cands minD minSize =
      (pickFirstMax (eligibleCands minD minSize cands)).map (fun x => x.1)
    ∧ (∀ w, pickFirstMax (eligibleCands minD minSize cands) = some w →
        w ∈ eligibleCands minD minSize cands ∧
        ∀ y ∈ eligibleCands minD minSize cands, y.2.le w.2 = true) := by
  constructor
  · rw [findBestBlockByDensity]
    rw [bestLoop_acc minD minSize cands none ⟨0, 1⟩ (by decide)]
    rcases hr : pickFirstMax (eligibleCands minD minSize cands) with _ | y
    · simp
    · have hy := pickFirstMax_mem _ y hr
      have hnum := eligible_num_pos minD minSize cands hms y hy
      have hlt : (⟨0, 1⟩ : Frac).lt y.2 = true := by
        simp only [Frac.lt, decide_eq_true_eq]
        omega
      simp [hlt]
  · intro w hw
    exact ⟨pickFirstMax_mem _ w hw,
           pickFirstMax_max _ (eligible_den_pos minD minSize cands) w hw⟩

/-- C6 witness: the characterization instantiated on a concrete page. -/
theorem C6_density_winner_witness :
    (1 : Int) ≤ 100 ∧
    (findBestBlockByDensity docDensity.bodyDescendants ⟨3, 10⟩ 100 =
      (pickFirstMax (eligibleCands ⟨3, 10⟩ 100 docDensity.bodyDescendants)).map (fun x => x.1)
    ∧ (∀ w, pickFirstMax (eligibleCands ⟨3, 10⟩ 100 docDensity.bodyDescendants) = some w →
        w ∈ eligibleCands ⟨3, 10⟩ 100 docDensity.bodyDescendants ∧
        ∀ y ∈ eligibleCands ⟨3, 10⟩ 100 docDensity.bodyDescendants, y.2.le w.2 = true)) :=
  ⟨by decide, C6_density_winner docDensity.bodyDescendants ⟨3, 10⟩ 100 (by decide)⟩

theorem regexStage_spec (doc : Doc) (pat : Pat) (h : pat.raw ≠ "" → pat.compiled.isSome) :
    extractTitleRegexStage doc pat =
      .value (match titleStageB doc pat with
              | some t => t
              | none => titleFallbackLoop doc fallbackSelectors) := by
  by_cases hp : pat.raw = ""
  · simp [extractTitleRegexStage, titleStageB, hp]
  · have hps := h hp
    rcases hc : pat.compiled with _ | f
    · rw [hc] at hps; simp at hps
    · rw [extractTitleRegexStage, titleStageB]
      simp only [hp, ne_eq, not_false_eq_true, if_true, hc]
      by_cases hlen : (f doc.html).length > 1
      · simp only [hlen, if_true]
        split <;> simp
      · simp [hlen]

/-- C9: the title resolver tries the explicit selector's first-match trimmed
text, then the regex pattern's tag-stripped trimmed first capture, then the
fixed fallback list (accepting only non-empty trimmed text under 200
characters); an earlier stage's non-empty result overrides all later stages,
and when every stage yields nothing the result is the empty string, not a
failure — provided the pattern is compilable (otherwise `ExtractTitle`
panics, claim C10). -/
theorem C9_title_precedence (doc : Doc) (sel : Sel) (pat : Pat)
    (h : pat.raw ≠ "" → pat.compiled.isSome) :
    ExtractTitle doc sel pat =
      .value (match titleStageA doc sel with
              | some t => t
              | none =>
                match titleStageB doc pat with
                | some t => t
                | none => titleFallbackLoop doc fallbackSelectors) := by
  by_cases hs : sel.raw = ""
  · simp [ExtractTitle, titleStageA, hs, regexStage_spec doc pat h]
  · rcases hf : doc.find sel.sem with _ | ⟨t, rest⟩
    · simp [ExtractTitle, titleStageA, hs, hf, regexStage_spec doc pat h]
    · by_cases ht : trimStr t.textContent = ""
      · simp [ExtractTitle, titleStageA, hs, hf, ht, regexStage_spec doc pat h]
      · simp [ExtractTitle, titleStageA, hs, hf, ht]

/-- C9 witness: the explicit selector stage wins on a concrete page. -/
theorem C9_title_precedence_witness :
    ((⟨"", none⟩ : Pat).raw ≠ "" → (⟨"", none⟩ : Pat).compiled.isSome) ∧
    ExtractTitle docTitle ⟨"h1", fun n => n.tagName = "h1"⟩ ⟨"", none⟩ = .value "The Title" :=
  ⟨fun hne => absurd rfl hne,
   (C9_title_precedence docTitle ⟨"h1", fun n => n.tagName = "h1"⟩ ⟨"", none⟩
     (fun hne => absurd rfl hne)).trans (by decide)⟩

theorem scanRepl_id (m : List Char → Option (List Char × List Char)) :
    ∀ (fuel : Nat) (l : List Char), (∀ l', l' <:+ l → m l' = none) →
      scanRepl m fuel l = l := by
  intro fuel
  induction fuel with
  | zero => intro l _; rfl
  | succ f ih =>
    intro l h
    cases l with
    | nil => rfl
    | cons c cs =>
      rw [scanRepl, h (c :: cs) (List.suffix_refl _)]
      rw [ih cs (fun l' hl' => h l' (hl'.trans (List.suffix_cons c cs)))]

theorem runScan_id (m : List Char → Option (List Char × List Char)) (l : List Char)
    (h : ∀ l', l' <:+ l → m l' = none) : runScan m l = l :=
  scanRepl_id m l.length l h

theorem stripPre_mem_head (p : Char) (ps l r : List Char)
    (h : stripPre (p :: ps) l = some r) : p ∈ l := by
  cases l with
  | nil => simp [stripPre] at h
  | cons c cs =>
    rw [stripPre] at h
    by_cases hc : c = p
    · subst hc; exact List.mem_cons_self _ _
    · simp [hc] at h

theorem mTagPair_none (tag : List Char) (l : List Char) (h : '<' ∉ l) :
    mTagPair tag l = none := by
  cases l with
  | nil => rfl
  | cons c cs =>
    have hc : ¬(c = '<') := by intro hceq; subst hceq; exact h (List.mem_cons_self _ _)
    simp [mTagPair, hc]

theorem mTagSingle_none (tag : List Char) (l : List Char) (h : '<' ∉ l) :
    mTagSingle tag l = none := by
  cases l with
  | nil => rfl
  | cons c cs =>
    have hc : ¬(c = '<') := by intro hceq; subst hceq; exact h (List.mem_cons_self _ _)
    simp [mTagSingle, hc]

theorem mComment_none (l : List Char) (h : '<' ∉ l) : mComment l = none := by
  unfold mComment
  rcases hs : stripPre "<!--".toList l with _ | r1
  · rfl
  · exact absurd (stripPre_mem_head '<' "!--".toList l r1 hs) h

theorem mEmptyP_none (l : List Char) (h : '<' ∉ l) : mEmptyP l = none := by
  unfold mEmptyP
  rcases hs : stripPre "<p".toList l with _ | r1
  · rfl
  · exact absurd (stripPre_mem_head '<' "p".toList l r1 hs) h

theorem mFixOpen_none (tag : List Char) (l : List Char) (h : '<' ∉ l) :
    mFixOpen tag l = none := by
  cases l with
  | nil => rfl
  | cons c cs =>
    have hc : ¬(c = '<') := by intro hceq; subst hceq; exact h (List.mem_cons_self _ _)
    simp [mFixOpen, hc]

theorem mFixClose_none (tag : List Char) (l : List Char) (h : '<' ∉ l) :
    mFixClose tag l = none := by
  cases l with
  | nil => rfl
  | cons c cs =>
    have hc : ¬(c = '<') := by intro hceq; subst hceq; exact h (List.mem_cons_self _ _)
    simp [mFixClose, hc]

theorem mCloseA_none (tag : List Char) (l : List Char) (h : '<' ∉ l) :
    mCloseA tag l = none := by
  cases l with
  | nil => rfl
  | cons c cs =>
    have hc : ¬(c = '<') := by intro hceq; subst hceq; exact h (List.mem_cons_self _ _)
    cases cs with
    | nil => rfl
    | cons c2 cs2 => simp [mCloseA, hc]

theorem stripPre_suffix : ∀ (ps l r : List Char), stripPre ps l = some r → r <:+ l := by
  intro ps
  induction ps with
  | nil =>
    intro l r h
    rw [stripPre] at h
    simp only [Option.some.injEq] at h
    subst h
    exact List.suffix_refl _
  | cons p ps ih =>
    intro l r h
    cases l with
    | nil => simp [stripPre] at h
    | cons c cs =>
      rw [stripPre] at h
      by_cases hc : c = p
      · simp only [hc, if_true] at h
        exact (ih cs r h).trans (List.suffix_cons c cs)
      · simp [hc] at h

theorem mEvent_none (q : Char) (l : List Char) (h : q ∉ l) : mEvent q l = none := by
  have hr1 : l.dropWhile regexWS <:+ l := List.dropWhile_suffix _
  simp only [mEvent]
  cases hw : (l.takeWhile regexWS).isEmpty with
  | true => simp [hw]
  | false =>
    simp only [hw, Bool.false_eq_true, if_false]
    rcases hd : l.dropWhile regexWS with _ | ⟨a, _ | ⟨b, r2⟩⟩
    · rfl
    · rfl
    · cases hab : (a = 'o' && b = 'n') with
      | false => simp [hab]
      | true =>
        simp only [hab, if_true]
        cases hwd : (r2.takeWhile wordChar).isEmpty with
        | true => simp [hwd]
        | false =>
          simp only [hwd, Bool.false_eq_true, if_false]
          rcases hd3 : r2.dropWhile wordChar with _ | ⟨e, _ | ⟨c, r4⟩⟩
          · rfl
          · rfl
          · cases hec : (e = '=' && c = q) with
            | false => simp [hec]
            | true =>
              exfalso
              have hcq : c = q := by
                simp only [Bool.and_eq_true, decide_eq_true_eq] at hec
                exact hec.2
              subst hcq
              have h3 : r2.dropWhile wordChar <:+ r2 := List.dropWhile_suffix _
              have hcr3 : c ∈ r2.dropWhile wordChar := by
                rw [hd3]
                exact List.mem_cons_of_mem _ (List.mem_cons_self _ _)
              have hcr1 : c ∈ l.dropWhile regexWS := by
                rw [hd]
                exact List.mem_cons_of_mem _ (List.mem_cons_of_mem _ (h3.subset hcr3))
              exact h (hr1.subset hcr1)

theorem mAttr_none (name : List Char) (q : Char) (l : List Char) (h : q ∉ l) :
    mAttr name q l = none := by
  have hr1 : l.dropWhile regexWS <:+ l := List.dropWhile_suffix _
  simp only [mAttr]
  cases hw : (l.takeWhile regexWS).isEmpty with
  | true => simp [hw]
  | false =>
    simp only [hw, Bool.false_eq_true, if_false]
    rcases hsp : stripPre name (l.dropWhile regexWS) with _ | r2
    · simp [hsp]
    · simp only [hsp]
      rcases r2 with _ | ⟨e, _ | ⟨c, r3⟩⟩
      · rfl
      · rfl
      · cases hec : (e = '=' && c = q) with
        | false => simp [hec]
        | true =>
          exfalso
          have hcq : c = q := by
            simp only [Bool.and_eq_true, decide_eq_true_eq] at hec
            exact hec.2
          subst hcq
          have h2 := stripPre_suffix name _ _ hsp
          have hcr2 : c ∈ e :: c :: r3 := List.mem_cons_of_mem _ (List.mem_cons_self _ _)
          exact h (hr1.subset (h2.subset hcr2))

theorem mDataDq_none (l : List Char) (h : '"' ∉ l) : mDataDq l = none := by
  have hr1 : l.dropWhile regexWS <:+ l := List.dropWhile_suffix _
  simp only [mDataDq]
  cases hw : (l.takeWhile regexWS).isEmpty with
  | true => simp [hw]
  | false =>
    simp only [hw, Bool.false_eq_true, if_false]
    rcases hsp : stripPre "data-".toList (l.dropWhile regexWS) with _ | r2
    · simp [hsp]
    · simp only [hsp]
      cases hnm : (r2.takeWhile dataNameChar).isEmpty with
      | true => simp [hnm]
      | false =>
        simp only [hnm, Bool.false_eq_true, if_false]
        rcases hd3 : r2.dropWhile dataNameChar with _ | ⟨e, _ | ⟨c, r4⟩⟩
        · rfl
        · rfl
        · cases hec : (e = '=' && c = '"') with
          | false => simp [hec]
          | true =>
            exfalso
            have hcq : c = '"' := by
              simp only [Bool.and_eq_true, decide_eq_true_eq] at hec
              exact hec.2
            have h2 := stripPre_suffix "data-".toList _ _ hsp
            have h3 : r2.dropWhile dataNameChar <:+ r2 := List.dropWhile_suffix _
            have hcr : c ∈ r2.dropWhile dataNameChar := by
              rw [hd3]
              exact List.mem_cons_of_mem _ (List.mem_cons_self _ _)
            rw [hcq] at hcr
            exact h (hr1.subset (h2.subset (h3.subset hcr)))

theorem mDataSq_none (l : List Char) (h : '\'' ∉ l) : mDataSq l = none := by
  have hr1 : l.dropWhile regexWS <:+ l := List.dropWhile_suffix _
  simp only [mDataSq]
  cases hw : (l.takeWhile regexWS).isEmpty with
  | true => simp [hw]
  | false =>
    simp only [hw, Bool.false_eq_true, if_false]
    rcases hsp : stripPre "data-".toList (l.dropWhile regexWS) with _ | r2
    · simp [hsp]
    · simp only [hsp]
      cases hnm : (r2.takeWhile dataNameChar).isEmpty with
      | true => simp [hnm]
      | false =>
        simp only [hnm, Bool.false_eq_true, if_false]
        rcases hd3 : r2.dropWhile dataNameChar with _ | ⟨c, r4⟩
        · rfl
        · by_cases hc : c = '\''
          · exfalso
            have h2 := stripPre_suffix "data-".toList _ _ hsp
            have h3 : r2.dropWhile dataNameChar <:+ r2 := List.dropWhile_suffix _
            have hcr : c ∈ r2.dropWhile dataNameChar := by
              rw [hd3]
              exact List.mem_cons_self _ _
            rw [hc] at hcr
            exact h (hr1.subset (h2.subset (h3.subset hcr)))
          · simp [hc]

theorem removeTag_id (l : List Char) (tag : String) (h : '<' ∉ l) : removeTag l tag = l := by
  unfold removeTag
  rw [runScan_id _ l (fun l' hl' => mTagPair_none tag.toList l' (fun hm => h (hl'.subset hm)))]
  exact runScan_id _ l (fun l' hl' => mTagSingle_none tag.toList l' (fun hm => h (hl'.subset hm)))

theorem removeHTMLComments_id (l : List Char) (h : '<' ∉ l) : removeHTMLComments l = l := by
  unfold removeHTMLComments
  exact runScan_id _ l (fun l' hl' => mComment_none l' (fun hm => h (hl'.subset hm)))

theorem removeEventHandlers_id (l : List Char) (hd : '"' ∉ l) (hs : '\'' ∉ l) :
    removeEventHandlers l = l := by
  unfold removeEventHandlers
  rw [runScan_id _ l (fun l' hl' => mEvent_none '"' l' (fun hm => hd (hl'.subset hm)))]
  exact runScan_id _ l (fun l' hl' => mEvent_none '\'' l' (fun hm => hs (hl'.subset hm)))

theorem removeAttribute_id (l : List Char) (name : String) (hd : '"' ∉ l) (hs : '\'' ∉ l) :
    removeAttribute l name = l := by
  unfold removeAttribute
  rw [runScan_id _ l (fun l' hl' => mAttr_none name.toList '"' l' (fun hm => hd (hl'.subset hm)))]
  exact runScan_id _ l (fun l' hl' => mAttr_none name.toList '\'' l' (fun hm => hs (hl'.subset hm)))

theorem removeDataAttributes_id (l : List Char) (hd : '"' ∉ l) (hs : '\'' ∉ l) :
    removeDataAttributes l = l := by
  unfold removeDataAttributes
  rw [runScan_id _ l (fun l' hl' => mDataDq_none l' (fun hm => hd (hl'.subset hm)))]
  exact runScan_id _ l (fun l' hl' => mDataSq_none l' (fun hm => hs (hl'.subset hm)))

theorem fixSelfClosingTags_id (l : List Char) (h : '<' ∉ l) : fixSelfClosingTags l = l := by
  unfold fixSelfClosingTags
  have hgen : ∀ (tags : List String),
      tags.foldl
        (fun acc tag => runScan (mFixClose tag.toList) (runScan (mFixOpen tag.toList) acc)) l
        = l := by
    intro tags
    induction tags with
    | nil => rfl
    | cons t ts ih =>
      rw [List.foldl_cons]
      rw [runScan_id _ l (fun l' hl' => mFixOpen_none t.toList l' (fun hm => h (hl'.subset hm)))]
      rw [runScan_id _ l (fun l' hl' => mFixClose_none t.toList l' (fun hm => h (hl'.subset hm)))]
      exact ih
  exact hgen selfClosingTags

theorem removeEmptyParagraphs_id (l : List Char) (h : '<' ∉ l) :
    removeEmptyParagraphs l = l := by
  unfold removeEmptyParagraphs
  exact runScan_id _ l (fun l' hl' => mEmptyP_none l' (fun hm => h (hl'.subset hm)))

theorem stripTagKeepContent_id (l : List Char) (tag : String) (h : '<' ∉ l) :
    stripTagKeepContent l tag = l := by
  unfold stripTagKeepContent
  rw [runScan_id _ l (fun l' hl' => by
    unfold mOpenA
    exact mTagSingle_none tag.toList l' (fun hm => h (hl'.subset hm)))]
  exact runScan_id _ l (fun l' hl' => mCloseA_none tag.toList l' (fun hm => h (hl'.subset hm)))

theorem noDbl_tail (a : Char) (l : List Char) (h : noDblSpace (a :: l) = true) :
    noDblSpace l = true := by
  cases l with
  | nil => rfl
  | cons b t =>
    rw [noDblSpace, Bool.and_eq_true] at h
    exact h.2

theorem noTriple_tail (a : Char) (l : List Char) (h : noTripleNl (a :: l) = true) :
    noTripleNl l = true := by
  cases l with
  | nil => rfl
  | cons b t =>
    cases t with
    | nil => rfl
    | cons c t2 =>
      rw [noTripleNl, Bool.and_eq_true] at h
      exact h.2

theorem noDbl_cons (c : Char) (l : List Char)
    (h1 : ∀ hx, l.head? = some hx → ¬(c = ' ' ∧ hx = ' '))
    (h2 : noDblSpace l = true) : noDblSpace (c :: l) = true := by
  cases l with
  | nil => rfl
  | cons b t =>
    rw [noDblSpace]
    rw [Bool.and_eq_true]
    refine ⟨?_, h2⟩
    have hnb := h1 b rfl
    by_cases hc : c = ' ' <;> by_cases hb : b = ' '
    · exact absurd ⟨hc, hb⟩ hnb
    all_goals simp [hc, hb]

theorem noTriple_cons (c : Char) (l : List Char)
    (h1 : ∀ x y tt, l = x :: y :: tt → ¬(c = '\n' ∧ x = '\n' ∧ y = '\n'))
    (h2 : noTripleNl l = true) : noTripleNl (c :: l) = true := by
  cases l with
  | nil => rfl
  | cons x t =>
    cases t with
    | nil => rfl
    | cons y t2 =>
      rw [noTripleNl]
      rw [Bool.and_eq_true]
      refine ⟨?_, h2⟩
      have hn3 := h1 x y t2 rfl
      by_cases hc : c = '\n' <;> by_cases hx : x = '\n' <;> by_cases hy : y = '\n'
      · exact absurd ⟨hc, hx, hy⟩ hn3
      all_goals simp [hc, hx, hy]

theorem noDbl_of_front : ∀ (l' t : List Char), noDblSpace (l' ++ t) = true →
    noDblSpace l' = true := by
  intro l'
  induction l' with
  | nil => intro t _; rfl
  | cons x l'' ih =>
    intro t h
    cases l'' with
    | nil => rfl
    | cons y l''' =>
      rw [noDblSpace]
      rw [List.cons_append, List.cons_append, noDblSpace] at h
      rw [Bool.and_eq_true] at h ⊢
      exact ⟨h.1, ih t (by simpa using h.2)⟩

theorem noTriple_of_front : ∀ (l' t : List Char), noTripleNl (l' ++ t) = true →
    noTripleNl l' = true := by
  intro l'
  induction l' with
  | nil => intro t _; rfl
  | cons x l'' ih =>
    intro t h
    cases l'' with
    | nil => rfl
    | cons y l''' =>
      cases l''' with
      | nil => rfl
      | cons z l4 =>
        rw [noTripleNl]
        rw [List.cons_append, List.cons_append, List.cons_append, noTripleNl] at h
        rw [Bool.and_eq_true] at h ⊢
        exact ⟨h.1, ih t (by simpa using h.2)⟩

theorem noDbl_of_suffix (l' l : List Char) (hs : l' <:+ l) (h : noDblSpace l = true) :
    noDblSpace l' = true := by
  obtain ⟨t, rfl⟩ := hs
  induction t with
  | nil => simpa using h
  | cons x t' ih => exact ih (noDbl_tail x _ h)

theorem noTriple_of_suffix (l' l : List Char) (hs : l' <:+ l) (h : noTripleNl l = true) :
    noTripleNl l' = true := by
  obtain ⟨t, rfl⟩ := hs
  induction t with
  | nil => simpa using h
  | cons x t' ih => exact ih (noTriple_tail x _ h)

theorem trimRight_isPre (l : List Char) : trimRightList l <+: l := by
  induction l with
  | nil => exact List.prefix_refl _
  | cons c cs ih =>
    rw [trimRightList]
    by_cases hc : ((trimRightList cs).isEmpty && goTrimWS c) = true
    · simp only [hc, if_true]
      exact List.nil_prefix
    · simp only [hc, Bool.false_eq_true, if_false]
      obtain ⟨t, ht⟩ := ih
      exact ⟨t, by rw [List.cons_append, ht]⟩

theorem trimRight_head (l : List Char) :
    trimRightList l = [] ∨ (trimRightList l).head? = l.head? := by
  cases l with
  | nil => left; rfl
  | cons c cs =>
    rw [trimRightList]
    by_cases hc : ((trimRightList cs).isEmpty && goTrimWS c) = true
    · left; simp [hc]
    · right; simp [hc]

theorem trimRight_idem (l : List Char) : trimRightList (trimRightList l) = trimRightList l := by
  induction l with
  | nil => rfl
  | cons c cs ih =>
    by_cases hc : ((trimRightList cs).isEmpty && goTrimWS c) = true
    · rw [trimRightList]
      simp only [hc, if_true]
      rfl
    · rw [trimRightList]
      simp only [hc, Bool.false_eq_true, if_false]
      rw [trimRightList, ih]
      simp only [hc, Bool.false_eq_true, if_false]

theorem head_dropWhile_not (p : Char → Bool) :
    ∀ (l : List Char) (h : Char), (l.dropWhile p).head? = some h → p h = false := by
  intro l
  induction l with
  | nil => intro h hh; simp at hh
  | cons c cs ih =>
    intro h hh
    rw [List.dropWhile_cons] at hh
    by_cases hc : p c = true
    · rw [if_pos hc] at hh
      exact ih h hh
    · rw [if_neg hc] at hh
      simp only [List.head?_cons, Option.some.injEq] at hh
      subst hh
      simpa using hc

theorem dropWhile_of_head_not (p : Char → Bool) (l : List Char)
    (h : ∀ hx, l.head? = some hx → p hx = false) : l.dropWhile p = l := by
  cases l with
  | nil => rfl
  | cons c cs =>
    rw [List.dropWhile_cons, if_neg]
    simp [h c rfl]

theorem trimList_idem (l : List Char) : trimList (trimList l) = trimList l := by
  unfold trimList
  rcases trimRight_head (l.dropWhile goTrimWS) with he | hh
  · rw [he]
    rfl
  · rw [dropWhile_of_head_not goTrimWS _ (fun hx hhx => by
      rw [hh] at hhx
      exact head_dropWhile_not goTrimWS l hx hhx)]
    exact trimRight_idem _

theorem mem_trimList (a : Char) (l : List Char) (h : a ∈ trimList l) : a ∈ l := by
  unfold trimList at h
  exact (List.dropWhile_suffix goTrimWS).subset ((trimRight_isPre _).subset h)

theorem collapseSpaces_cons : ∀ (r : List Char) (d : Char),
    ∃ t, collapseSpaces (d :: r) = (if spTab d then ' ' else d) :: t := by
  intro r
  induction r with
  | nil =>
    intro d
    exact ⟨[], rfl⟩
  | cons e r' ih =>
    intro d
    by_cases hde : (spTab d && spTab e) = true
    · rw [collapseSpaces]
      simp only [hde, if_true]
      obtain ⟨t, ht⟩ := ih e
      refine ⟨t, ?_⟩
      rw [ht]
      rw [Bool.and_eq_true] at hde
      simp [hde.1, hde.2]
    · rw [collapseSpaces]
      simp only [hde, Bool.false_eq_true, if_false]
      exact ⟨collapseSpaces (e :: r'), rfl⟩

theorem noTab_collapseSpaces : ∀ (l : List Char), '\t' ∉ collapseSpaces l := by
  intro l
  induction l using collapseSpaces.induct with
  | case1 => simp [collapseSpaces]
  | case2 c =>
    rw [collapseSpaces]
    by_cases hc : spTab c = true
    · simp [hc]
    · intro hmem
      simp only [hc, Bool.false_eq_true, if_false, List.mem_singleton] at hmem
      subst hmem
      simp [spTab] at hc
  | case3 c d rest hcd ih =>
    rw [collapseSpaces]
    simpa [hcd] using ih
  | case4 c d rest hcd ih =>
    rw [collapseSpaces]
    simp only [hcd, Bool.false_eq_true, if_false]
    intro hmem
    rcases List.mem_cons.mp hmem with hh | ht
    · by_cases hc : spTab c = true
      · rw [if_pos hc] at hh
        exact absurd hh.symm (by decide)
      · rw [if_neg hc] at hh
        rw [← hh] at hc
        simp [spTab] at hc
    · exact ih ht

theorem noDbl_collapseSpaces : ∀ (l : List Char), noDblSpace (collapseSpaces l) = true := by
  intro l
  induction l using collapseSpaces.induct with
  | case1 => rfl
  | case2 c => rw [collapseSpaces]; split <;> rfl
  | case3 c d rest hcd ih =>
    rw [collapseSpaces]
    simpa [hcd] using ih
  | case4 c d rest hcd ih =>
    rw [collapseSpaces]
    simp only [hcd, Bool.false_eq_true, if_false]
    obtain ⟨t, ht⟩ := collapseSpaces_cons rest d
    refine noDbl_cons _ _ ?_ ih
    intro hx hhx
    rw [ht] at hhx
    simp only [List.head?_cons, Option.some.injEq] at hhx
    subst hhx
    rintro ⟨hc, hd⟩
    apply hcd
    rw [Bool.and_eq_true]
    constructor
    · by_cases hsc : spTab c = true
      · exact hsc
      · rw [if_neg hsc] at hc
        simp [spTab, hc]
    · by_cases hsd : spTab d = true
      · exact hsd
      · rw [if_neg hsd] at hd
        simp [spTab, hd]

theorem spTab_space (c : Char) (hc : spTab c = true) (htab : ¬(c = '\t')) : c = ' ' := by
  rcases (by simpa [spTab] using hc : c = ' ' ∨ c = '\t') with h1 | h2
  · exact h1
  · exact absurd h2 htab

theorem collapseSpaces_id : ∀ (l : List Char), '\t' ∉ l → noDblSpace l = true →
    collapseSpaces l = l := by
  intro l
  induction l using collapseSpaces.induct with
  | case1 => intro _ _; rfl
  | case2 c =>
    intro htab _
    rw [collapseSpaces]
    by_cases hc : spTab c = true
    · have hcs : c = ' ' :=
        spTab_space c hc (fun hh => htab (by rw [← hh]; exact List.mem_cons_self _ _))
      simp [hc, hcs]
    · simp [hc]
  | case3 c d rest hcd ih =>
    intro htab hdbl
    exfalso
    rw [Bool.and_eq_true] at hcd
    have hc : c = ' ' :=
      spTab_space c hcd.1 (fun hh => htab (by rw [← hh]; exact List.mem_cons_self _ _))
    have hd : d = ' ' :=
      spTab_space d hcd.2 (fun hh => htab (by
        rw [← hh]; exact List.mem_cons_of_mem _ (List.mem_cons_self _ _)))
    rw [hc, hd, noDblSpace] at hdbl
    simp at hdbl
  | case4 c d rest hcd ih =>
    intro htab hdbl
    rw [collapseSpaces]
    simp only [hcd, Bool.false_eq_true, if_false]
    rw [ih (fun hm => htab (List.mem_cons_of_mem c hm)) (noDbl_tail c _ hdbl)]
    by_cases hc : spTab c = true
    · have hcs : c = ' ' :=
        spTab_space c hc (fun hh => htab (by rw [← hh]; exact List.mem_cons_self _ _))
      simp [hc, hcs]
    · simp [hc]

theorem mem_collapseSpaces : ∀ (l : List Char) (a : Char), a ∈ collapseSpaces l →
    a ∈ l ∨ a = ' ' := by
  intro l
  induction l using collapseSpaces.induct with
  | case1 => intro a ha; simp [collapseSpaces] at ha
  | case2 c =>
    intro a ha
    rw [collapseSpaces] at ha
    by_cases hc : spTab c = true
    · right
      simpa [hc] using ha
    · left
      simp only [hc, Bool.false_eq_true, if_false, List.mem_singleton] at ha
      simp [ha]
  | case3 c d rest hcd ih =>
    intro a ha
    rw [collapseSpaces] at ha
    simp only [hcd, if_true] at ha
    rcases ih a ha with hm | hs
    · left; exact List.mem_cons_of_mem c hm
    · right; exact hs
  | case4 c d rest hcd ih =>
    intro a ha
    rw [collapseSpaces] at ha
    simp only [hcd, Bool.false_eq_true, if_false] at ha
    rcases List.mem_cons.mp ha with hh | ht
    · by_cases hc : spTab c = true
      · right; simpa [hc] using hh
      · left; rw [if_neg hc] at hh; simp [hh]
    · rcases ih a ht with hm | hs
      · left; exact List.mem_cons_of_mem c hm
      · right; exact hs

theorem collapseNewlines_cons : ∀ (l : List Char) (d : Char) (r : List Char),
    l = d :: r → ∃ t, collapseNewlines l = d :: t := by
  intro l
  induction l using collapseNewlines.induct with
  | case1 a b c rest habc ih =>
    intro d r hl
    injection hl with hd hr
    rw [collapseNewlines]
    simp only [habc, if_true]
    obtain ⟨t, ht⟩ := ih b (c :: rest) rfl
    refine ⟨t, ?_⟩
    rw [ht]
    rw [Bool.and_eq_true, Bool.and_eq_true] at habc
    obtain ⟨⟨ha, hb⟩, _⟩ := habc
    rw [((by simpa using hb : b = '\n').trans
      (((by simpa using ha : a = '\n')).symm.trans hd))]
  | case2 a b c rest habc ih =>
    intro d r hl
    injection hl with hd hr
    rw [collapseNewlines]
    simp only [habc, Bool.false_eq_true, if_false]
    exact ⟨collapseNewlines (b :: c :: rest), by rw [hd]⟩
  | case3 l hshape =>
    intro d r hl
    subst hl
    rcases r with _ | ⟨x, _ | ⟨y, rr⟩⟩
    · exact ⟨[], rfl⟩
    · exact ⟨[x], rfl⟩
    · exact (hshape d x y rr rfl).elim

theorem collapseNewlines_cons2 (b c : Char) (r : List Char) (hc : ¬(c = '\n')) :
    ∃ t, collapseNewlines (b :: c :: r) = b :: c :: t := by
  rcases r with _ | ⟨e, r2⟩
  · exact ⟨[], rfl⟩
  · rw [collapseNewlines]
    have hcond : (b = '\n' && c = '\n' && e = '\n') = false := by simp [hc]
    simp only [hcond, Bool.false_eq_true, if_false]
    obtain ⟨t, ht⟩ := collapseNewlines_cons (c :: e :: r2) c (e :: r2) rfl
    exact ⟨t, by rw [ht]⟩

theorem noTriple_collapseNewlines : ∀ (l : List Char),
    noTripleNl (collapseNewlines l) = true := by
  intro l
  induction l using collapseNewlines.induct with
  | case1 a b c rest habc ih =>
    rw [collapseNewlines]
    simpa [habc] using ih
  | case2 a b c rest habc ih =>
    rw [collapseNewlines]
    simp only [habc, Bool.false_eq_true, if_false]
    refine noTriple_cons _ _ ?_ ih
    intro x y tt hX
    rintro ⟨ha, hx, hy⟩
    obtain ⟨t, ht⟩ := collapseNewlines_cons (b :: c :: rest) b (c :: rest) rfl
    have hxb : x = b := by
      rw [ht] at hX
      injection hX with h1 _
      exact h1.symm
    have hb : b = '\n' := (hxb.symm).trans hx
    have hcn : ¬(c = '\n') := by
      intro hcc
      rw [ha, hb, hcc] at habc
      simp at habc
    obtain ⟨t2, ht2⟩ := collapseNewlines_cons2 b c rest hcn
    rw [ht2] at hX
    injection hX with h1 hX2
    injection hX2 with hyc _
    exact hcn (hyc.trans hy)
  | case3 l hshape =>
    rcases l with _ | ⟨x, _ | ⟨y, _ | ⟨z, rr⟩⟩⟩
    · rfl
    · rfl
    · rfl
    · exact (hshape x y z rr rfl).elim

theorem collapseNewlines_id : ∀ (l : List Char), noTripleNl l = true →
    collapseNewlines l = l := by
  intro l
  induction l using collapseNewlines.induct with
  | case1 a b c rest habc ih =>
    intro h3
    exfalso
    rw [noTripleNl, Bool.and_eq_true] at h3
    rw [habc] at h3
    simp at h3
  | case2 a b c rest habc ih =>
    intro h3
    rw [collapseNewlines]
    simp only [habc, Bool.false_eq_true, if_false]
    rw [ih (noTriple_tail a _ h3)]
  | case3 l hshape =>
    intro h3
    rcases l with _ | ⟨x, _ | ⟨y, _ | ⟨z, rr⟩⟩⟩
    · rfl
    · rfl
    · rfl
    · exact (hshape x y z rr rfl).elim

theorem mem_collapseNewlines : ∀ (l : List Char) (a : Char), a ∈ collapseNewlines l →
    a ∈ l := by
  intro l
  induction l using collapseNewlines.induct with
  | case1 a b c rest habc ih =>
    intro x hx
    rw [collapseNewlines] at hx
    simp only [habc, if_true] at hx
    exact List.mem_cons_of_mem _ (ih x hx)
  | case2 a b c rest habc ih =>
    intro x hx
    rw [collapseNewlines] at hx
    simp only [habc, Bool.false_eq_true, if_false] at hx
    rcases List.mem_cons.mp hx with hh | ht
    · simp [hh]
    · exact List.mem_cons_of_mem _ (ih x ht)
  | case3 l hshape =>
    intro x hx
    rcases l with _ | ⟨u, _ | ⟨v, _ | ⟨w, rr⟩⟩⟩
    · exact hx
    · exact hx
    · exact hx
    · exact (hshape u v w rr rfl).elim

theorem noDbl_collapseNewlines : ∀ (l : List Char), noDblSpace l = true →
    noDblSpace (collapseNewlines l) = true := by
  intro l
  induction l using collapseNewlines.induct with
  | case1 a b c rest habc ih =>
    intro hdbl
    rw [collapseNewlines]
    simp only [habc, if_true]
    exact ih (noDbl_tail a _ hdbl)
  | case2 a b c rest habc ih =>
    intro hdbl
    rw [collapseNewlines]
    simp only [habc, Bool.false_eq_true, if_false]
    obtain ⟨t, ht⟩ := collapseNewlines_cons (b :: c :: rest) b (c :: rest) rfl
    refine noDbl_cons _ _ ?_ (ih (noDbl_tail a _ hdbl))
    intro hx hhx
    rw [ht] at hhx
    simp only [List.head?_cons, Option.some.injEq] at hhx
    rintro ⟨ha, hb⟩
    rw [noDblSpace, Bool.and_eq_true] at hdbl
    have hpair := hdbl.1
    rw [ha, show b = ' ' from hhx.trans hb] at hpair
    simp at hpair
  | case3 l hshape =>
    intro hdbl
    rcases l with _ | ⟨x, _ | ⟨y, _ | ⟨z, rr⟩⟩⟩
    · exact hdbl
    · exact hdbl
    · exact hdbl
    · exact (hshape x y z rr rfl).elim

theorem mem_collapseWhitespace (a : Char) (l : List Char) (h : a ∈ collapseWhitespace l) :
    a ∈ l ∨ a = ' ' := by
  unfold collapseWhitespace at h
  exact mem_collapseSpaces l a (mem_collapseNewlines _ a h)

theorem noDbl_trimList (l : List Char) (h : noDblSpace l = true) :
    noDblSpace (trimList l) = true := by
  unfold trimList
  have h1 := noDbl_of_suffix (l.dropWhile goTrimWS) l (List.dropWhile_suffix goTrimWS) h
  obtain ⟨t, ht⟩ := trimRight_isPre (l.dropWhile goTrimWS)
  exact noDbl_of_front _ t (by rw [ht]; exact h1)

theorem noTriple_trimList (l : List Char) (h : noTripleNl l = true) :
    noTripleNl (trimList l) = true := by
  unfold trimList
  have h1 := noTriple_of_suffix (l.dropWhile goTrimWS) l (List.dropWhile_suffix goTrimWS) h
  obtain ⟨t, ht⟩ := trimRight_isPre (l.dropWhile goTrimWS)
  exact noTriple_of_front _ t (by rw [ht]; exact h1)

theorem normalize_reduced (n : HTMLNormalizer) (s : String)
    (h1 : '<' ∉ s.toList) (h2 : '"' ∉ s.toList) (h3 : '\'' ∉ s.toList) :
    n.Normalize s = String.mk (trimList (collapseWhitespace s.toList)) := by
  have hL8 : '<' ∉ collapseWhitespace s.toList := fun hm => by
    rcases mem_collapseWhitespace _ _ hm with hmem | hsp
    · exact h1 hmem
    · exact absurd hsp (by decide)
  simp only [HTMLNormalizer.Normalize]
  rw [removeTag_id s.toList "script" h1, removeTag_id s.toList "style" h1,
      removeTag_id s.toList "noscript" h1,
      removeHTMLComments_id s.toList h1, removeEventHandlers_id s.toList h2 h3,
      removeAttribute_id s.toList "style" h2 h3, removeAttribute_id s.toList "class" h2 h3,
      removeAttribute_id s.toList "id" h2 h3, removeDataAttributes_id s.toList h2 h3,
      fixSelfClosingTags_id s.toList h1, removeEmptyParagraphs_id s.toList h1]
  rw [removeTag_id (collapseWhitespace s.toList) "img" hL8]
  simp only [ite_self]
  rw [stripTagKeepContent_id (collapseWhitespace s.toList) "a" hL8]
  simp only [ite_self]

/-- C3 counterexample: the sanitization pipeline is not idempotent — the
void-element normalizer rewrites `<br  >` to `<br />` on the first pass and
to `<br/>` only on the second, so re-applying the sanitizer changes the
output. -/
theorem C3_normalize_not_idempotent :
    NewHTMLNormalizer.Normalize "<br  >" = "<br />" ∧
    NewHTMLNormalizer.Normalize "<br />" = "<br/>" ∧
    NewHTMLNormalizer.Normalize (NewHTMLNormalizer.Normalize "<br  >") ≠
      NewHTMLNormalizer.Normalize "<br  >" :=
  ⟨by decide, by decide, by decide⟩

/-- C3 (amended): the sanitizer is not idempotent on arbitrary markup
(counterexample `<br  >`); idempotence does hold on inputs free of `<`, `"`
and `'` characters, where the pipeline reduces to whitespace collapsing and
trimming. -/
theorem C3_normalize_idempotent_on_markup_free (n : HTMLNormalizer) (s : String)
    (h1 : '<' ∉ s.toList) (h2 : '"' ∉ s.toList) (h3 : '\'' ∉ s.toList) :
    n.Normalize (n.Normalize s) = n.Normalize s := by
  rw [normalize_reduced n s h1 h2 h3]
  have hyl : (String.mk (trimList (collapseWhitespace s.toList))).toList =
      trimList (collapseWhitespace s.toList) := rfl
  have habs : ∀ ch : Char, ch ∉ s.toList → ¬(ch = ' ') →
      ch ∉ trimList (collapseWhitespace s.toList) := by
    intro ch hch hsp hm
    rcases mem_collapseWhitespace ch s.toList (mem_trimList ch _ hm) with hmem | heq
    · exact hch hmem
    · exact hsp heq
  rw [normalize_reduced n (String.mk (trimList (collapseWhitespace s.toList)))
    (by rw [hyl]; exact habs '<' h1 (by decide))
    (by rw [hyl]; exact habs '"' h2 (by decide))
    (by rw [hyl]; exact habs '\'' h3 (by decide))]
  rw [hyl]
  have hyTab : '\t' ∉ trimList (collapseWhitespace s.toList) := by
    intro hm
    exact noTab_collapseSpaces s.toList
      (mem_collapseNewlines _ '\t' (mem_trimList '\t' _ hm))
  have hyDbl : noDblSpace (trimList (collapseWhitespace s.toList)) = true :=
    noDbl_trimList _ (noDbl_collapseNewlines _ (noDbl_collapseSpaces s.toList))
  have hyTriple : noTripleNl (trimList (collapseWhitespace s.toList)) = true :=
    noTriple_trimList _ (noTriple_collapseNewlines _)
  have hidem : trimList (trimList (collapseWhitespace s.toList)) =
      trimList (collapseWhitespace s.toList) := trimList_idem _
  revert hyTab hyDbl hyTriple hidem
  generalize trimList (collapseWhitespace s.toList) = Y
  intro hyTab hyDbl hyTriple hidem
  rw [show collapseWhitespace Y = Y from by
    unfold collapseWhitespace
    rw [collapseSpaces_id Y hyTab hyDbl, collapseNewlines_id _ hyTriple]]
  rw [hidem]

/-- C3 witness: idempotence on a concrete markup-free string containing
collapsible whitespace. -/
theorem C3_normalize_idempotent_witness :
    '<' ∉ "a  b\n\n\n\nc ".toList ∧ '"' ∉ "a  b\n\n\n\nc ".toList ∧
    '\'' ∉ "a  b\n\n\n\nc ".toList ∧
    NewHTMLNormalizer.Normalize (NewHTMLNormalizer.Normalize "a  b\n\n\n\nc ") =
      NewHTMLNormalizer.Normalize "a  b\n\n\n\nc " :=
  ⟨by decide, by decide, by decide,
   C3_normalize_idempotent_on_markup_free NewHTMLNormalizer "a  b\n\n\n\nc "
     (by decide) (by decide) (by decide)⟩
